import Mathlib

/-!
Verification of the SimpleDBForge LSM write path: the key comparator
(`lsm/utils/kv.go`), the skip-list index (`lsm/pkg/skip_list.go`), the
write-ahead log (`internal/lsm/wal.go`) and the memtable that composes them.

The Go source is shallowly embedded: strings are Lean `String` compared by
code point (byte-wise comparison of UTF-8 agrees with code-point order),
Go `int`/`int64` values that never overflow in the modelled paths are `Int`
or `Nat`, byte sequences are `List Nat`, and the pointer-linked skip list
is an arena of nodes addressed by list index.  The random level drawn by
`randomLevel` is passed in as an explicit argument, and the external
protobuf codec is a parameter (a pair of functions).
-/

namespace SDBF

/-! ## Key comparison (`lsm/utils/kv.go`)

`strings.Compare` compares Go strings byte-wise; on valid UTF-8 this equals
code-point lexicographic order, modelled on `List Char` via `Char.toNat`. -/

/-- Three-way comparison of two characters, returning -1/0/1 like Go. -/
def charCmp (a b : Char) : Int :=
  if a.toNat < b.toNat then -1 else if b.toNat < a.toNat then 1 else 0

/-- `strings.Compare` on the underlying character lists: -1/0/1. -/
def cmpCharList : List Char → List Char → Int
  | [], [] => 0
  | [], _ :: _ => -1
  | _ :: _, [] => 1
  | a :: as, b :: bs => if a.toNat < b.toNat then -1 else if b.toNat < a.toNat then 1 else cmpCharList as bs

/-- `strings.Compare a b` (byte-wise lexicographic, -1/0/1). -/
def strCompare (a b : String) : Int := cmpCharList a.data b.data

/-- Numeric value of an ASCII digit, `none` on any other character
(`strconv.ParseUint` with base 10 accepts only 0-9). -/
def digitVal (c : Char) : Option Nat :=
  if '0' ≤ c ∧ c ≤ '9' then some (c.toNat - '0'.toNat) else none

/-- Accumulating base-10 parse; `none` as soon as a non-digit appears. -/
def parseDigitsAux (acc : Nat) : List Char → Option Nat
  | [] => some acc
  | c :: cs =>
    match digitVal c with
    | some d => parseDigitsAux (acc * 10 + d) cs
    | none => none

/-- `strconv.ParseUint(s, 10, 64)`: `none` on the empty string, on a
non-digit, or on overflow past 2^64 - 1 (Go reports these as errors and
`ParseTs` then falls back to 0). Overflow is checked on the final value,
which for base 10 accumulation is equivalent to Go's per-step check. -/
def parseUint64 (l : List Char) : Option Nat :=
  match l with
  | [] => none
  | _ :: _ =>
    match parseDigitsAux 0 l with
    | some v => if v < 2 ^ 64 then some v else none
    | none => none

/-- Index of the last `'@'` in the list, as `strings.LastIndex(key, "@")`
(`none` for Go's -1).  `'@'` is ASCII, so byte index = character index. -/
def lastAt : List Char → Option Nat
  | [] => none
  | c :: cs =>
    match lastAt cs with
    | some i => some (i + 1)
    | none => if c = '@' then some 0 else none

/-- `key[strings.LastIndex(key,"@")+1:]`: the suffix after the last `'@'`,
or the whole key when there is no `'@'` (Go's `-1 + 1 = 0`). -/
def afterLastAt (l : List Char) : List Char :=
  match lastAt l with
  | none => l
  | some i => l.drop (i + 1)

/-- `ParseTs` from `lsm/utils/kv.go`: 0 for the empty key, otherwise the
parsed suffix after the last `'@'`, with 0 on any parse failure. -/
def parseTs (l : List Char) : Nat :=
  match l with
  | [] => 0
  | _ :: _ => (parseUint64 (afterLastAt l)).getD 0

/-- `splitKey` from `lsm/utils/kv.go`: split a key into (stem, timestamp).
No `'@'`, or a timestamp that parses to 0 (which includes parse failures),
keeps the whole key as the stem with timestamp 0. -/
def splitKey (l : List Char) : List Char × Nat :=
  match lastAt l with
  | none => (l, 0)
  | some i =>
    let ts := parseTs l
    if ts = 0 then (l, 0) else (l.take i, ts)

/-- Comparison of two (stem, timestamp) pairs: stems lexicographically
first; on equal stems, timestamps in descending order (the larger
timestamp orders first, i.e. compares as smaller). -/
def pairCmp (x y : List Char × Nat) : Int :=
  if cmpCharList x.1 y.1 ≠ 0 then cmpCharList x.1 y.1
  else if x.2 < y.2 then 1
  else if y.2 < x.2 then -1
  else 0

/-- `CompareKey` from `lsm/utils/kv.go` (the `splitKey`-based version used
by the skip list): split both keys, compare stems, then timestamps
descending.  Returns -1/0/1 like the Go `int` result. -/
def CompareKey (a b : String) : Int :=
  pairCmp (splitKey a.data) (splitKey b.data)

/-! ### Order-theoretic facts about `charCmp`, `cmpCharList`, `pairCmp` -/

theorem cmpCharList_self (l : List Char) : cmpCharList l l = 0 := by
  induction l with
  | nil => rfl
  | cons a as ih => simp [cmpCharList, ih]

theorem cmpCharList_cases (a b : List Char) :
    cmpCharList a b = -1 ∨ cmpCharList a b = 0 ∨ cmpCharList a b = 1 := by
  induction a generalizing b with
  | nil => cases b <;> simp [cmpCharList]
  | cons x xs ih =>
    cases b with
    | nil => simp [cmpCharList]
    | cons y ys =>
      by_cases h1 : x.toNat < y.toNat
      · simp [cmpCharList, h1]
      · by_cases h2 : y.toNat < x.toNat
        · simp [cmpCharList, h1, h2]
        · simpa [cmpCharList, h1, h2] using ih ys

theorem charToNat_inj (a b : Char) (h : a.toNat = b.toNat) : a = b :=
  Char.ext (UInt32.ext h)

theorem cmpCharList_eq_zero_iff (a b : List Char) :
    cmpCharList a b = 0 ↔ a = b := by
  constructor
  · intro h
    induction a generalizing b with
    | nil => cases b with
      | nil => rfl
      | cons y ys => simp [cmpCharList] at h
    | cons x xs ih =>
      cases b with
      | nil => simp [cmpCharList] at h
      | cons y ys =>
        by_cases h1 : x.toNat < y.toNat
        · simp [cmpCharList, h1] at h
        · by_cases h2 : y.toNat < x.toNat
          · simp [cmpCharList, h1, h2] at h
          · have hxy : x = y := charToNat_inj x y (by omega)
            simp [cmpCharList, h1, h2] at h
            rw [hxy, ih ys h]
  · rintro rfl; exact cmpCharList_self a

theorem cmpCharList_swap (a b : List Char) :
    cmpCharList a b = -cmpCharList b a := by
  induction a generalizing b with
  | nil => cases b <;> simp [cmpCharList]
  | cons x xs ih =>
    cases b with
    | nil => simp [cmpCharList]
    | cons y ys =>
      by_cases h1 : x.toNat < y.toNat
      · have h2 : ¬ y.toNat < x.toNat := Nat.lt_asymm h1
        simp [cmpCharList, h1, h2]
      · by_cases h2 : y.toNat < x.toNat
        · simp [cmpCharList, h1, h2]
        · simpa [cmpCharList, h1, h2] using ih ys

theorem cmpCharList_lt_trans {a b c : List Char}
    (hab : cmpCharList a b = -1) (hbc : cmpCharList b c = -1) :
    cmpCharList a c = -1 := by
  induction a generalizing b c with
  | nil =>
    cases b with
    | nil => simp [cmpCharList] at hab
    | cons y ys => cases c with
      | nil => simp [cmpCharList] at hbc
      | cons z zs => simp [cmpCharList]
  | cons x xs ih =>
    cases b with
    | nil => simp [cmpCharList] at hab
    | cons y ys =>
      cases c with
      | nil => simp [cmpCharList] at hbc
      | cons z zs =>
        by_cases hxy : x.toNat < y.toNat
        · by_cases hyz : y.toNat < z.toNat
          · have hxz : x.toNat < z.toNat := Nat.lt_trans hxy hyz
            simp [cmpCharList, hxz]
          · by_cases hzy : z.toNat < y.toNat
            · simp [cmpCharList, hyz, hzy] at hbc
            · have hyz' : y.toNat = z.toNat := Nat.le_antisymm (Nat.le_of_not_lt hzy) (Nat.le_of_not_lt hyz)
              have hxz : x.toNat < z.toNat := hyz' ▸ hxy
              simp [cmpCharList, hxz]
        · by_cases hyx : y.toNat < x.toNat
          · simp [cmpCharList, hxy, hyx] at hab
          · have hxy' : x.toNat = y.toNat := by omega
            simp [cmpCharList, hxy, hyx] at hab
            by_cases hyz : y.toNat < z.toNat
            · have hxz : x.toNat < z.toNat := hxy' ▸ hyz
              simp [cmpCharList, hxz]
            · by_cases hzy : z.toNat < y.toNat
              · simp [cmpCharList, hyz, hzy] at hbc
              · have hyzeq : y.toNat = z.toNat := by omega
                have hxz1 : ¬ x.toNat < z.toNat := by omega
                have hxz2 : ¬ z.toNat < x.toNat := by omega
                simp [cmpCharList, hyz, hzy] at hbc
                simp [cmpCharList, hxz1, hxz2]
                exact ih hab hbc

theorem pairCmp_self (x : List Char × Nat) : pairCmp x x = 0 := by
  simp [pairCmp, cmpCharList_self]

theorem pairCmp_eq_zero_iff (x y : List Char × Nat) :
    pairCmp x y = 0 ↔ x = y := by
  constructor
  · intro h
    unfold pairCmp at h
    by_cases hc : cmpCharList x.1 y.1 = 0
    · simp [hc] at h
      refine Prod.ext ((cmpCharList_eq_zero_iff _ _).mp hc) ?_
      by_cases ha : x.2 < y.2
      · rw [if_pos ha] at h; norm_num at h
      · by_cases hb : y.2 < x.2
        · rw [if_neg ha, if_pos hb] at h; norm_num at h
        · omega
    · simp [hc] at h
  · rintro rfl; exact pairCmp_self x

theorem pairCmp_swap (x y : List Char × Nat) : pairCmp x y = -pairCmp y x := by
  unfold pairCmp
  have hs := cmpCharList_swap x.1 y.1
  split_ifs <;> omega

theorem pairCmp_cases (x y : List Char × Nat) :
    pairCmp x y = -1 ∨ pairCmp x y = 0 ∨ pairCmp x y = 1 := by
  unfold pairCmp
  rcases cmpCharList_cases x.1 y.1 with h | h | h <;> split_ifs <;> omega

theorem pairCmp_neg_one_iff (x y : List Char × Nat) :
    pairCmp x y = -1 ↔ (cmpCharList x.1 y.1 = -1 ∨ (x.1 = y.1 ∧ y.2 < x.2)) := by
  unfold pairCmp
  constructor
  · intro h
    by_cases hc : cmpCharList x.1 y.1 = 0
    · simp [hc] at h
      refine Or.inr ⟨(cmpCharList_eq_zero_iff _ _).mp hc, ?_⟩
      by_cases ha : x.2 < y.2
      · rw [if_pos ha] at h; norm_num at h
      · by_cases hb : y.2 < x.2
        · exact hb
        · rw [if_neg ha, if_neg hb] at h; norm_num at h
    · simp [hc] at h
      exact Or.inl h
  · intro h
    rcases h with h | ⟨he, ht⟩
    · simp [h]
    · have hc : cmpCharList x.1 y.1 = 0 := (cmpCharList_eq_zero_iff _ _).mpr he
      simp [hc, ht, Nat.lt_asymm ht]

theorem pairCmp_lt_trans {x y z : List Char × Nat}
    (hxy : pairCmp x y = -1) (hyz : pairCmp y z = -1) : pairCmp x z = -1 := by
  rw [pairCmp_neg_one_iff] at hxy hyz ⊢
  rcases hxy with h1 | ⟨e1, t1⟩
  · rcases hyz with h2 | ⟨e2, t2⟩
    · exact Or.inl (cmpCharList_lt_trans h1 h2)
    · exact Or.inl (e2 ▸ h1)
  · rcases hyz with h2 | ⟨e2, t2⟩
    · exact Or.inl (e1 ▸ h2)
    · exact Or.inr ⟨e1.trans e2, Nat.lt_trans t2 t1⟩

/-! ### `CompareKey` as an order -/

theorem CompareKey_def (a b : String) :
    CompareKey a b = pairCmp (splitKey a.data) (splitKey b.data) := rfl

theorem CompareKey_self (a : String) : CompareKey a a = 0 := pairCmp_self _

theorem CompareKey_swap (a b : String) : CompareKey a b = -CompareKey b a :=
  pairCmp_swap _ _

theorem CompareKey_cases (a b : String) :
    CompareKey a b = -1 ∨ CompareKey a b = 0 ∨ CompareKey a b = 1 :=
  pairCmp_cases _ _

/-- `CompareKey` is zero exactly when the two keys have the same
(stem, timestamp) decomposition — not necessarily the same string. -/
theorem CompareKey_eq_zero_iff (a b : String) :
    CompareKey a b = 0 ↔ splitKey a.data = splitKey b.data :=
  pairCmp_eq_zero_iff _ _

theorem CompareKey_lt_trans {a b c : String}
    (hab : CompareKey a b = -1) (hbc : CompareKey b c = -1) :
    CompareKey a c = -1 :=
  pairCmp_lt_trans hab hbc

theorem CompareKey_congr_left {a b : String} (h : CompareKey a b = 0)
    (c : String) : CompareKey a c = CompareKey b c := by
  have := (CompareKey_eq_zero_iff a b).mp h
  unfold CompareKey
  rw [this]

theorem CompareKey_congr_right {a b : String} (h : CompareKey a b = 0)
    (c : String) : CompareKey c a = CompareKey c b := by
  have := (CompareKey_eq_zero_iff a b).mp h
  unfold CompareKey
  rw [this]

theorem CompareKey_le_trans {a b c : String}
    (hab : CompareKey a b ≤ 0) (hbc : CompareKey b c ≤ 0) :
    CompareKey a c ≤ 0 := by
  rcases CompareKey_cases a b with h1 | h1 | h1
  · rcases CompareKey_cases b c with h2 | h2 | h2
    · have := CompareKey_lt_trans h1 h2
      omega
    · rw [CompareKey_congr_right h2 a] at h1
      omega
    · omega
  · rw [CompareKey_congr_left h1 c]
    exact hbc
  · omega

theorem CompareKey_lt_of_lt_of_le {a b c : String}
    (hab : CompareKey a b = -1) (hbc : CompareKey b c ≤ 0) :
    CompareKey a c = -1 := by
  rcases CompareKey_cases b c with h2 | h2 | h2
  · exact CompareKey_lt_trans hab h2
  · rw [CompareKey_congr_right h2 a] at hab
    exact hab
  · omega

theorem CompareKey_lt_of_le_of_lt {a b c : String}
    (hab : CompareKey a b ≤ 0) (hbc : CompareKey b c = -1) :
    CompareKey a c = -1 := by
  rcases CompareKey_cases a b with h1 | h1 | h1
  · exact CompareKey_lt_trans h1 hbc
  · rw [CompareKey_congr_left h1 c]
    exact hbc
  · omega

/-! ### The comparison algorithm as worded by the spec (for claim C2)

The spec says the whole key is kept as the stem with timestamp 0 exactly
"when `@` is absent or the suffix does not parse as an unsigned 64-bit
integer".  The code additionally treats a suffix that parses to the value
0 as "no timestamp".  `specSplitKeyC2` follows the spec's words;
`amendedSplitKeyC2` adds the ts = 0 guard that the code actually has. -/

/-- Key splitting as the spec's words describe it: whole key with
timestamp 0 only when `'@'` is absent or the suffix fails to parse. -/
def specSplitKeyC2 (l : List Char) : List Char × Nat :=
  match lastAt l with
  | none => (l, 0)
  | some i =>
    match parseUint64 (l.drop (i + 1)) with
    | none => (l, 0)
    | some ts => (l.take i, ts)

/-- The comparison the spec's words describe (claim C2). -/
def specCompareKeyC2 (a b : String) : Int :=
  pairCmp (specSplitKeyC2 a.data) (specSplitKeyC2 b.data)

/-- `specSplitKeyC2` amended minimally: a suffix that parses to 0 is also
treated as "no timestamp", keeping the whole key as the stem. -/
def amendedSplitKeyC2 (l : List Char) : List Char × Nat :=
  match lastAt l with
  | none => (l, 0)
  | some i =>
    match parseUint64 (l.drop (i + 1)) with
    | none => (l, 0)
    | some ts => if ts = 0 then (l, 0) else (l.take i, ts)

/-- The amended comparison for claim C2. -/
def amendedCompareKeyC2 (a b : String) : Int :=
  pairCmp (amendedSplitKeyC2 a.data) (amendedSplitKeyC2 b.data)

theorem lastAt_ne_nil {l : List Char} {i : Nat} (h : lastAt l = some i) :
    l ≠ [] := by
  intro hnil
  subst hnil
  simp [lastAt] at h

theorem splitKey_eq_amended (l : List Char) :
    splitKey l = amendedSplitKeyC2 l := by
  unfold splitKey amendedSplitKeyC2
  cases hl : lastAt l with
  | none => rfl
  | some i =>
    have hne : l ≠ [] := lastAt_ne_nil hl
    have hts : parseTs l = (parseUint64 (l.drop (i + 1))).getD 0 := by
      unfold parseTs afterLastAt
      cases l with
      | nil => exact absurd rfl hne
      | cons c cs => rw [hl]
    cases hp : parseUint64 (l.drop (i + 1)) with
    | none =>
      rw [hts, hp]
      simp [hp]
    | some ts =>
      rw [hts, hp]
      by_cases h0 : ts = 0 <;> simp [h0, hp]

/-! ## The skip list (`lsm/pkg/skip_list.go`)

Pointer-linked nodes are embedded as an arena: `nodes` is the list of all
nodes ever inserted, a pointer is an `Option Nat` index into it (`none` is
Go's `nil`), and the head sentinel is represented by the position value
`none` with its forward links in `headNext`.  The head's dummy entry
(`Key: "HEAD"`) never takes part in a comparison in the Go code, so it is
not materialized.  `randomLevel()` (and hence the field `p` and the
per-list generator `rand`) is externalized: `set` receives the drawn level
as the explicit argument `lvl`.  Go slice indexing that would panic on out
of range is modelled by a default (`none` / a zero entry); the invariant
`Inv` below shows no reachable state ever indexes out of range. -/

/-- `sdbf.Entry`: key, value bytes, tombstone flag, version. -/
structure Entry where
  key : String
  value : List Nat
  tombstone : Bool
  version : Int
deriving DecidableEq, Repr

/-- The all-zero entry (used only as an out-of-range default). -/
def entryZero : Entry := { key := "", value := [], tombstone := false, version := 0 }

/-- `Element`: one entry plus one forward link per level the node is on. -/
structure Node where
  entry : Entry
  next : List (Option Nat)
deriving DecidableEq, Repr

/-- `SkipList` aggregate state (`p` and `rand` externalized, see above). -/
structure SkipList where
  maxLevel : Nat
  level : Nat
  size : Int
  count : Nat
  headNext : List (Option Nat)
  nodes : List Node
deriving DecidableEq, Repr

/-- `NewSkipList(maxLevel, p)`: head sentinel with `maxLevel` nil links,
level 1, count 0, size 0. -/
def SkipList.new (maxLevel : Nat) : SkipList :=
  { maxLevel := maxLevel, level := 1, size := 0, count := 0,
    headNext := List.replicate maxLevel none, nodes := [] }

/-- Replace the element at index `i` (identity when out of range). -/
def modIdx {α : Type} : List α → Nat → (α → α) → List α
  | [], _, _ => []
  | x :: xs, 0, f => f x :: xs
  | x :: xs, i + 1, f => x :: modIdx xs i f

/-- `curr.next[i]` for a position (`none` = the head sentinel). -/
def nextPtr (sl : SkipList) (p : Option Nat) (i : Nat) : Option Nat :=
  match p with
  | none => sl.headNext.getD i none
  | some j =>
    match sl.nodes[j]? with
    | none => none
    | some nd => nd.next.getD i none

/-- The entry stored at arena index `j`. -/
def entryAt (sl : SkipList) (j : Nat) : Entry :=
  match sl.nodes[j]? with
  | none => entryZero
  | some nd => nd.entry

/-- The key stored at arena index `j`. -/
def keyAt (sl : SkipList) (j : Nat) : String := (entryAt sl j).key

/-- Number of forward links of node `j` (its drawn level). -/
def height (sl : SkipList) (j : Nat) : Nat :=
  match sl.nodes[j]? with
  | none => 0
  | some nd => nd.next.length

/-- The inner loop of `Set`/`Get`/`Scan` at one level: advance while the
successor's key is strictly less than `key` under `CompareKey`.  `fuel`
bounds the iteration count; with `fuel = nodes.length + 1` it never runs
out on a state satisfying `Inv` (chains are duplicate-free). -/
def advanceAux (sl : SkipList) (key : String) (i : Nat) : Nat → Option Nat → Option Nat
  | 0, p => p
  | fuel + 1, p =>
    match nextPtr sl p i with
    | none => p
    | some j =>
      if CompareKey (keyAt sl j) key < 0 then advanceAux sl key i fuel (some j)
      else p

/-- One level of the search loop with the standard fuel. -/
def advance (sl : SkipList) (key : String) (i : Nat) (p : Option Nat) : Option Nat :=
  advanceAux sl key i (sl.nodes.length + 1) p

/-- The search loop `for i := s.maxLevel - 1; i >= 0; i--` of
`Set`/`Get`/`Scan`: walk levels `i-1, …, 0` starting from `p`; returns the
final position and the recorded `update` vector (index `k` of the returned
list is `update[k]`). -/
def walkDown (sl : SkipList) (key : String) : Nat → Option Nat → Option Nat × List (Option Nat)
  | 0, p => (p, [])
  | i + 1, p =>
    let q := advance sl key i p
    let r := walkDown sl key i q
    (r.1, r.2 ++ [q])

/-- `update[i].next[i] = e`: redirect one forward slot to `v`. -/
def setNextSlot (hn : List (Option Nat)) (ns : List Node) (p : Option Nat)
    (i : Nat) (v : Option Nat) : List (Option Nat) × List Node :=
  match p with
  | none => (hn.set i v, ns)
  | some u => (hn, modIdx ns u (fun nd => { nd with next := nd.next.set i v }))

/-- The splice loop `for i := range level`: at every level `i < lvl`
redirect `update[i].next[i]` to the new node `n` (ascending `i`, like Go;
the touched slots are pairwise distinct so the order is irrelevant). -/
def spliceAll (hn : List (Option Nat)) (ns : List Node) (ups : List (Option Nat))
    (n : Nat) : Nat → List (Option Nat) × List Node
  | 0 => (hn, ns)
  | i + 1 =>
    let s := spliceAll hn ns ups n i
    setNextSlot s.1 s.2 (ups.getD i none) i (some n)

/-- Map with the element index. -/
def mapWithIdxAux {α β : Type} (f : Nat → α → β) : Nat → List α → List β
  | _, [] => []
  | k, x :: xs => f k x :: mapWithIdxAux f (k + 1) xs

/-- Level extension `for i := s.level; i < level; i++ { update[i] = head }`. -/
def overwriteRange (ups : List (Option Nat)) (a b : Nat) : List (Option Nat) :=
  mapWithIdxAux (fun i x => if a ≤ i ∧ i < b then none else x) 0 ups

/-- The insert path of `Set`: extend the update vector if the drawn level
exceeds the current one, build the new node's links from the recorded
predecessors, splice it in at levels `0 … lvl-1`, bump size and count.
The size delta uses `unsafe.Sizeof` values of the 64-bit build:
bool = 1, int64 = 8, pointer = 8. -/
def SkipList.insertNew (sl : SkipList) (entry : Entry) (lvl : Nat)
    (ups : List (Option Nat)) : SkipList :=
  let ups2 := if sl.level < lvl then overwriteRange ups sl.level lvl else ups
  let newLevel := if sl.level < lvl then lvl else sl.level
  let n := sl.nodes.length
  let newNext := (List.range lvl).map (fun i => nextPtr sl (ups2.getD i none) i)
  let s := spliceAll sl.headNext sl.nodes ups2 n lvl
  { maxLevel := sl.maxLevel
    level := newLevel
    size := sl.size + (entry.key.utf8ByteSize : Int) + (entry.value.length : Int)
      + 1 + 8 + (lvl : Int) * 8
    count := sl.count + 1
    headNext := s.1
    nodes := s.2 ++ [{ entry := entry, next := newNext }] }

/-- `Set`: search with update vector; if the level-0 successor's key is
`CompareKey`-equal, update value/tombstone in place and adjust size by the
value-length delta; otherwise insert a new node of height `lvl`. -/
def SkipList.set (sl : SkipList) (entry : Entry) (lvl : Nat) : SkipList :=
  let w := walkDown sl entry.key sl.maxLevel none
  match nextPtr sl w.1 0 with
  | some j =>
    if CompareKey (keyAt sl j) entry.key = 0 then
      { sl with
        size := sl.size + (entry.value.length : Int) - ((entryAt sl j).value.length : Int),
        nodes := modIdx sl.nodes j (fun nd =>
          { nd with entry := { nd.entry with
              value := entry.value, tombstone := entry.tombstone } }) }
    else sl.insertNew entry lvl w.2
  | none => sl.insertNew entry lvl w.2

/-- `Get`: search, step to the level-0 successor, and report it only when
its key is string-equal (`curr.Key == key`) to the query. -/
def SkipList.get (sl : SkipList) (key : String) : Option Entry :=
  let w := walkDown sl key sl.maxLevel none
  match nextPtr sl w.1 0 with
  | none => none
  | some j => if keyAt sl j = key then some (entryAt sl j) else none

/-- The collection loop of `Scan`: follow level-0 links collecting entries
while the key is ≤ `endKey` under `CompareKey`. -/
def collectLoop (sl : SkipList) (endKey : String) : Nat → Option Nat → List Entry
  | 0, _ => []
  | fuel + 1, p =>
    match p with
    | none => []
    | some j =>
      if CompareKey (keyAt sl j) endKey ≤ 0 then
        entryAt sl j :: collectLoop sl endKey fuel (nextPtr sl (some j) 0)
      else []

/-- `Scan(start, end)`: position at the first node not less than `start`,
then collect while ≤ `end`. -/
def SkipList.scan (sl : SkipList) (start endKey : String) : List Entry :=
  let w := walkDown sl start sl.maxLevel none
  collectLoop sl endKey (sl.nodes.length + 1) (nextPtr sl w.1 0)

/-- The level-0 (or level-`i`) chain from a position, by following
pointers with fuel (specification device; agrees with the real chain on
states satisfying `Inv`). -/
def chainAux (sl : SkipList) (i : Nat) : Nat → Option Nat → List Nat
  | 0, _ => []
  | fuel + 1, p =>
    match nextPtr sl p i with
    | none => []
    | some j => j :: chainAux sl i fuel (some j)

/-- The full chain of arena indices reachable from the head at level `i`. -/
def SkipList.chain (sl : SkipList) (i : Nat) : List Nat :=
  chainAux sl i (sl.nodes.length + 1) none

/-- All stored entries in level-0 (key) order. -/
def SkipList.elems (sl : SkipList) : List Entry := (sl.chain 0).map (entryAt sl)

/-- The write loop of `All`: `all[index] = curr.Entry; index++` over a
pre-allocated slice.  `List.set` ignores an out-of-range index where Go
would panic; under `Inv` the index never exceeds `count`. -/
def fillAll : List Entry → Nat → List Entry → List Entry
  | acc, _, [] => acc
  | acc, i, e :: es => fillAll (acc.set i e) (i + 1) es

/-- `All()`: `make([]Entry, s.count)` filled by walking the level-0 list. -/
def SkipList.all (sl : SkipList) : List Entry :=
  fillAll (List.replicate sl.count entryZero) 0 sl.elems

/-- `Reset()` returns a fresh empty list with the same configuration. -/
def SkipList.reset (sl : SkipList) : SkipList := SkipList.new sl.maxLevel

/-- `GetSize()`. -/
def SkipList.getSize (sl : SkipList) : Int := sl.size

/-- The states reachable from `NewSkipList` by `Set` calls whose drawn
level is in the legal range `1 … maxLevel` (as `randomLevel` guarantees). -/
inductive Reachable : SkipList → Prop
  | base (maxLevel : Nat) : 1 ≤ maxLevel → Reachable (SkipList.new maxLevel)
  | step {sl : SkipList} (entry : Entry) (lvl : Nat) :
      Reachable sl → 1 ≤ lvl → lvl ≤ sl.maxLevel → Reachable (sl.set entry lvl)

/-! ## Chains and the structural invariant -/

/-- The position at which a walk from `p` along a list `l` of node
indices ends: the last element of `l`, or `p` itself when `l` is empty. -/
def endPos (p : Option Nat) (l : List Nat) : Option Nat :=
  match l.getLast? with
  | some j => some j
  | none => p

/-- `IsChainSeg sl i p l q`: starting at position `p`, following the
level-`i` links visits exactly the nodes `l` and stops at position `q`. -/
inductive IsChainSeg (sl : SkipList) (i : Nat) : Option Nat → List Nat → Option Nat → Prop
  | nil (p : Option Nat) : IsChainSeg sl i p [] p
  | cons {p : Option Nat} {j : Nat} {l : List Nat} {q : Option Nat} :
      nextPtr sl p i = some j → IsChainSeg sl i (some j) l q → IsChainSeg sl i p (j :: l) q

/-- `l` is the entire level-`i` chain from position `p` (it ends at nil). -/
def IsChainFrom (sl : SkipList) (i : Nat) (p : Option Nat) (l : List Nat) : Prop :=
  IsChainSeg sl i p l (endPos p l) ∧ nextPtr sl (endPos p l) i = none

theorem endPos_nil (p : Option Nat) : endPos p [] = p := rfl

theorem endPos_cons (p : Option Nat) (j : Nat) (l : List Nat) :
    endPos p (j :: l) = endPos (some j) l := by
  cases l with
  | nil => rfl
  | cons x xs =>
    unfold endPos
    rw [List.getLast?_cons_cons]
    cases h : (x :: xs).getLast? with
    | some y => rfl
    | none => simp at h

theorem endPos_append (p : Option Nat) (a b : List Nat) :
    endPos p (a ++ b) = endPos (endPos p a) b := by
  induction a generalizing p with
  | nil => rfl
  | cons x xs ih => rw [List.cons_append, endPos_cons, endPos_cons, ih]

theorem IsChainSeg.end_eq {sl : SkipList} {i : Nat} {p : Option Nat}
    {l : List Nat} {q : Option Nat} (h : IsChainSeg sl i p l q) :
    q = endPos p l := by
  induction h with
  | nil p => rfl
  | cons hp _ ih => rw [ih, endPos_cons]

theorem IsChainSeg.append {sl : SkipList} {i : Nat} {p q r : Option Nat}
    {a b : List Nat} (h1 : IsChainSeg sl i p a q) (h2 : IsChainSeg sl i q b r) :
    IsChainSeg sl i p (a ++ b) r := by
  induction h1 with
  | nil p => exact h2
  | cons hp _ ih => exact IsChainSeg.cons hp (ih h2)

theorem IsChainSeg.split {sl : SkipList} {i : Nat} {p r : Option Nat}
    {a b : List Nat} (h : IsChainSeg sl i p (a ++ b) r) :
    IsChainSeg sl i p a (endPos p a) ∧ IsChainSeg sl i (endPos p a) b r := by
  induction a generalizing p with
  | nil => exact ⟨IsChainSeg.nil p, h⟩
  | cons x xs ih =>
    cases h with
    | cons hp htail =>
      obtain ⟨h1, h2⟩ := ih htail
      exact ⟨IsChainSeg.cons hp ((endPos_cons p x xs) ▸ h1),
        (endPos_cons p x xs) ▸ h2⟩

theorem IsChainFrom.split_append {sl : SkipList} {i : Nat} {p : Option Nat}
    {a b : List Nat} (h : IsChainFrom sl i p (a ++ b)) :
    IsChainSeg sl i p a (endPos p a) ∧ IsChainFrom sl i (endPos p a) b := by
  obtain ⟨hseg, hend⟩ := h
  rw [endPos_append] at hseg hend
  obtain ⟨h1, h2⟩ := hseg.split
  exact ⟨h1, h2, hend⟩

/-- Walking cannot diverge: the chain from a fixed position is unique. -/
theorem IsChainFrom.unique {sl : SkipList} {i : Nat} {p : Option Nat}
    {l1 l2 : List Nat} (h1 : IsChainFrom sl i p l1) (h2 : IsChainFrom sl i p l2) :
    l1 = l2 := by
  induction l1 generalizing p l2 with
  | nil =>
    obtain ⟨_, hend1⟩ := h1
    rw [endPos_nil] at hend1
    cases l2 with
    | nil => rfl
    | cons y ys =>
      obtain ⟨hseg2, _⟩ := h2
      cases hseg2 with
      | cons hp _ => rw [hp] at hend1; cases hend1
  | cons x xs ih =>
    obtain ⟨hseg1, hend1⟩ := h1
    cases hseg1 with
    | cons hp1 htail1 =>
      cases l2 with
      | nil =>
        obtain ⟨_, hend2⟩ := h2
        rw [endPos_nil] at hend2
        rw [hp1] at hend2; cases hend2
      | cons y ys =>
        obtain ⟨hseg2, hend2⟩ := h2
        cases hseg2 with
        | cons hp2 htail2 =>
          rw [hp1] at hp2
          injection hp2 with hxy
          subst hxy
          have e1 : IsChainFrom sl i (some x) xs :=
            ⟨(endPos_cons p x xs) ▸ htail1, (endPos_cons p x xs) ▸ hend1⟩
          have e2 : IsChainFrom sl i (some x) ys :=
            ⟨(endPos_cons p x ys) ▸ htail2, (endPos_cons p x ys) ▸ hend2⟩
          rw [ih e1 e2]

/-- With enough fuel, the executable `chainAux` computes the chain. -/
theorem chainAux_eq {sl : SkipList} {i : Nat} {p : Option Nat} {l : List Nat}
    (h : IsChainFrom sl i p l) {fuel : Nat} (hf : l.length ≤ fuel) :
    chainAux sl i fuel p = l := by
  induction l generalizing p fuel with
  | nil =>
    obtain ⟨_, hend⟩ := h
    rw [endPos_nil] at hend
    cases fuel with
    | zero => rfl
    | succ f => simp [chainAux, hend]
  | cons x xs ih =>
    obtain ⟨hseg, hend⟩ := h
    cases hseg with
    | cons hp htail =>
      cases fuel with
      | zero => simp at hf
      | succ f =>
        have h' : IsChainFrom sl i (some x) xs :=
          ⟨(endPos_cons p x xs) ▸ htail, (endPos_cons p x xs) ▸ hend⟩
        simp only [chainAux, hp]
        rw [ih h' (by simpa using hf)]

/-- Data collected by the invariant: the sorted level-0 ordering `ord`
of all arena indices, and the per-level chains as height filters of it. -/
structure InvData (sl : SkipList) (ord : List Nat) : Prop where
  chain0 : IsChainFrom sl 0 none ord
  sorted : ord.Pairwise (fun a b => CompareKey (keyAt sl a) (keyAt sl b) = -1)
  memLt : ∀ j ∈ ord, j < sl.nodes.length
  complete : ∀ j, j < sl.nodes.length → j ∈ ord
  chains : ∀ i, i < sl.maxLevel →
    IsChainFrom sl i none (ord.filter (fun j => decide (i < height sl j)))

/-- The structural invariant of every reachable skip list. -/
structure Inv (sl : SkipList) : Prop where
  hnLen : sl.headNext.length = sl.maxLevel
  lvlGe : 1 ≤ sl.level
  lvlLe : sl.level ≤ sl.maxLevel
  cnt : sl.count = sl.nodes.length
  hts : ∀ j, j < sl.nodes.length → 1 ≤ height sl j ∧ height sl j ≤ sl.level
  ordEx : ∃ ord, InvData sl ord

/-! ### Derived facts about the invariant, and the search-loop
correctness: the walk lands on the last node whose key is below the
target, with the remaining chain starting at the first node that is not. -/

/-- Boolean "key of node `j` is strictly below `t`". -/
def belowB (sl : SkipList) (t : String) (j : Nat) : Bool :=
  decide (CompareKey (keyAt sl j) t < 0)

/-- The level-`i` chain as a height filter of the level-0 ordering. -/
def levChain (sl : SkipList) (ord : List Nat) (i : Nat) : List Nat :=
  ord.filter (fun j => decide (i < height sl j))

theorem levChain_mem {sl : SkipList} {ord : List Nat} {i j : Nat} :
    j ∈ levChain sl ord i ↔ j ∈ ord ∧ i < height sl j := by
  simp [levChain, List.mem_filter]

theorem endPos_none (l : List Nat) : endPos none l = l.getLast? := by
  unfold endPos
  cases l.getLast? <;> rfl

theorem InvData.chainsL {sl : SkipList} {ord : List Nat} (d : InvData sl ord)
    {i : Nat} (hi : i < sl.maxLevel) :
    IsChainFrom sl i none (levChain sl ord i) := d.chains i hi

theorem InvData.nodup {sl : SkipList} {ord : List Nat} (d : InvData sl ord) :
    ord.Nodup := by
  refine d.sorted.imp ?_
  intro a b h he
  subst he
  rw [CompareKey_self] at h
  exact absurd h (by norm_num)

theorem InvData.length_eq {sl : SkipList} {ord : List Nat} (d : InvData sl ord) :
    ord.length = sl.nodes.length := by
  have h1 : ord.length ≤ sl.nodes.length := by
    have hsub : ∀ x ∈ ord, x ∈ List.range sl.nodes.length := by
      intro x hx
      exact List.mem_range.mpr (d.memLt x hx)
    have := List.Subperm.length_le (List.subperm_of_subset d.nodup hsub)
    simpa using this
  have h2 : sl.nodes.length ≤ ord.length := by
    have hsub : ∀ x ∈ List.range sl.nodes.length, x ∈ ord := by
      intro x hx
      exact d.complete x (List.mem_range.mp hx)
    have := List.Subperm.length_le (List.subperm_of_subset (List.nodup_range _) hsub)
    simpa using this
  omega

theorem levChain_sorted {sl : SkipList} {ord : List Nat} (d : InvData sl ord)
    (i : Nat) :
    (levChain sl ord i).Pairwise
      (fun a b => CompareKey (keyAt sl a) (keyAt sl b) = -1) :=
  d.sorted.sublist (List.filter_sublist ord)

theorem levChain_length_le {sl : SkipList} {ord : List Nat} (d : InvData sl ord)
    (i : Nat) : (levChain sl ord i).length ≤ sl.nodes.length := by
  have h1 : (levChain sl ord i).length ≤ ord.length := by
    have hs : List.Sublist (levChain sl ord i) ord := List.filter_sublist ord
    exact hs.length_le
  have h2 := d.length_eq
  omega

theorem levChain_zero {sl : SkipList} {ord : List Nat} (inv : Inv sl)
    (d : InvData sl ord) : levChain sl ord 0 = ord := by
  refine List.filter_eq_self.mpr ?_
  intro j hj
  have hlt := d.memLt j hj
  have := (inv.hts j hlt).1
  simp
  omega

/-- In a chain, the pointer at the start is the head of the list. -/
theorem IsChainFrom.nextPtr_eq_head {sl : SkipList} {i : Nat} {p : Option Nat}
    {l : List Nat} (h : IsChainFrom sl i p l) : nextPtr sl p i = l.head? := by
  cases l with
  | nil =>
    obtain ⟨_, hend⟩ := h
    rw [endPos_nil] at hend
    simpa using hend
  | cons x xs =>
    obtain ⟨hseg, _⟩ := h
    cases hseg with
    | cons hp _ => simpa using hp

theorem takeWhile_append_all {α : Type} (p : α → Bool) {a : List α} (b : List α)
    (h : ∀ x ∈ a, p x = true) : (a ++ b).takeWhile p = a ++ b.takeWhile p := by
  induction a with
  | nil => simp
  | cons x xs ih =>
    have hx := h x (List.mem_cons_self x xs)
    simp only [List.cons_append, List.takeWhile_cons, hx]
    rw [ih (fun y hy => h y (List.mem_cons_of_mem x hy))]
    simp

theorem dropWhile_append_all {α : Type} (p : α → Bool) {a : List α} (b : List α)
    (h : ∀ x ∈ a, p x = true) : (a ++ b).dropWhile p = b.dropWhile p := by
  induction a with
  | nil => simp
  | cons x xs ih =>
    have hx := h x (List.mem_cons_self x xs)
    simp only [List.cons_append, List.dropWhile_cons, hx]
    exact ih (fun y hy => h y (List.mem_cons_of_mem x hy))

/-- The core loop lemma: along the chain from `p`, the advance loop stops
at the end of the below-target segment, and the chain from there is the
rest. -/
theorem advanceAux_spec {sl : SkipList} {t : String} {i : Nat} :
    ∀ {l : List Nat} {p : Option Nat} {fuel : Nat},
    IsChainFrom sl i p l → l.length < fuel →
    advanceAux sl t i fuel p = endPos p (l.takeWhile (belowB sl t)) ∧
    IsChainFrom sl i (endPos p (l.takeWhile (belowB sl t)))
      (l.dropWhile (belowB sl t)) := by
  intro l
  induction l with
  | nil =>
    intro p fuel h hf
    obtain ⟨_, hend⟩ := h
    rw [endPos_nil] at hend
    cases fuel with
    | zero => omega
    | succ f =>
      constructor
      · simp [advanceAux, hend, endPos_nil]
      · exact ⟨IsChainSeg.nil p, by simpa using hend⟩
  | cons j js ih =>
    intro p fuel h hf
    obtain ⟨hseg, hend⟩ := h
    cases hseg with
    | cons hp htail =>
      have h' : IsChainFrom sl i (some j) js :=
        ⟨(endPos_cons p j js) ▸ htail, (endPos_cons p j js) ▸ hend⟩
      cases fuel with
      | zero => omega
      | succ f =>
        by_cases hb : CompareKey (keyAt sl j) t < 0
        · have hB : belowB sl t j = true := by simp [belowB, hb]
          have hrec := @ih (some j) f h' (by simp only [List.length_cons] at hf; omega)
          constructor
          · simp only [advanceAux, hp, if_pos hb]
            rw [hrec.1]
            simp only [List.takeWhile_cons, hB, if_true, endPos_cons]
          · simp only [List.takeWhile_cons, List.dropWhile_cons, hB, if_true, endPos_cons]
            exact hrec.2
        · have hB : belowB sl t j = false := by simp [belowB, hb]
          constructor
          · simp [advanceAux, hp, if_neg hb, List.takeWhile_cons, hB, endPos_nil]
          · simp only [List.takeWhile_cons, List.dropWhile_cons, hB, endPos_nil]
            exact ⟨IsChainSeg.cons hp htail, hend⟩

/-- Split a full chain at a known position `p` that is either the head or
a visited node whose key is below the target: everything before and
including `p` is below the target. -/
theorem chain_suffix_split {sl : SkipList} {t : String} {i : Nat} {l : List Nat}
    (hch : IsChainFrom sl i none l)
    (hsort : l.Pairwise (fun a b => CompareKey (keyAt sl a) (keyAt sl b) = -1))
    {p : Option Nat}
    (hp : p = none ∨ ∃ u, p = some u ∧ u ∈ l ∧ CompareKey (keyAt sl u) t < 0) :
    ∃ l1 l2, l = l1 ++ l2 ∧ endPos none l1 = p ∧
      (∀ x ∈ l1, belowB sl t x = true) ∧ IsChainFrom sl i p l2 := by
  rcases hp with rfl | ⟨u, rfl, hu, hbu⟩
  · exact ⟨[], l, rfl, rfl, by simp, hch⟩
  · obtain ⟨a, b, rfl⟩ := List.append_of_mem hu
    refine ⟨a ++ [u], b, by simp, ?_, ?_, ?_⟩
    · rw [endPos_append]
      rfl
    · intro x hx
      rcases List.mem_append.mp hx with hxa | hxu
      · have hxu' : CompareKey (keyAt sl x) (keyAt sl u) = -1 := by
          rw [List.pairwise_append] at hsort
          exact hsort.2.2 x hxa u (List.mem_cons_self u b)
        have : CompareKey (keyAt sl x) t = -1 :=
          CompareKey_lt_of_lt_of_le hxu' (le_of_lt hbu)
        simp [belowB]
        omega
      · have : x = u := by simpa using hxu
        subst this
        simp [belowB, hbu]
    · have hch2 : IsChainFrom sl i none ((a ++ [u]) ++ b) := by simpa using hch
      have he : endPos none (a ++ [u]) = some u := by
        rw [endPos_append]
        rfl
      exact he ▸ hch2.split_append.2

/-- `advance` from a legal start position lands at the end of the
below-target section of the whole level-`i` chain. -/
theorem advance_spec {sl : SkipList} {t : String} {i : Nat} {l : List Nat}
    (hch : IsChainFrom sl i none l)
    (hsort : l.Pairwise (fun a b => CompareKey (keyAt sl a) (keyAt sl b) = -1))
    (hlen : l.length ≤ sl.nodes.length)
    {p : Option Nat}
    (hp : p = none ∨ ∃ u, p = some u ∧ u ∈ l ∧ CompareKey (keyAt sl u) t < 0) :
    advance sl t i p = endPos none (l.takeWhile (belowB sl t)) ∧
    IsChainFrom sl i (endPos none (l.takeWhile (belowB sl t)))
      (l.dropWhile (belowB sl t)) := by
  obtain ⟨l1, l2, rfl, hend1, hall, hchp⟩ := chain_suffix_split hch hsort hp
  have hlen2 : l2.length < sl.nodes.length + 1 := by
    rw [List.length_append] at hlen
    omega
  have := @advanceAux_spec sl t i l2 p (sl.nodes.length + 1) hchp hlen2
  rw [takeWhile_append_all _ _ hall, dropWhile_append_all _ _ hall,
    endPos_append, hend1]
  exact this

/-- Correctness of the full descent: the update vector records, at every
level, the last node of that level's chain whose key is below the target
(`none` = the head), and the final position is the level-0 one, with the
rest of the level-0 chain being exactly the not-below-target suffix. -/
theorem walkDown_spec {sl : SkipList} {ord : List Nat}
    (d : InvData sl ord) (t : String) :
    ∀ k, k ≤ sl.maxLevel → ∀ p : Option Nat,
    (p = none ∨ ∃ u, p = some u ∧ u ∈ ord ∧ k ≤ height sl u ∧
      CompareKey (keyAt sl u) t < 0) →
    (walkDown sl t k p).2 =
      (List.range k).map
        (fun i => endPos none ((levChain sl ord i).takeWhile (belowB sl t))) ∧
    (1 ≤ k →
      (walkDown sl t k p).1 =
        endPos none ((levChain sl ord 0).takeWhile (belowB sl t)) ∧
      IsChainFrom sl 0 (walkDown sl t k p).1
        ((levChain sl ord 0).dropWhile (belowB sl t))) := by
  intro k
  induction k with
  | zero =>
    intro _ p _
    exact ⟨rfl, by omega⟩
  | succ k ih =>
    intro hk p hp
    have hchk : IsChainFrom sl k none (levChain sl ord k) :=
      d.chains k (by omega)
    have hsort := levChain_sorted d k
    have hlen := levChain_length_le d k
    have hp' : p = none ∨ ∃ u, p = some u ∧ u ∈ levChain sl ord k ∧
        CompareKey (keyAt sl u) t < 0 := by
      rcases hp with rfl | ⟨u, rfl, hu, hh, hb⟩
      · exact Or.inl rfl
      · exact Or.inr ⟨u, rfl, levChain_mem.mpr ⟨hu, by omega⟩, hb⟩
    obtain ⟨hq1, hq2⟩ := advance_spec hchk hsort hlen hp'
    have hpq : advance sl t k p = none ∨ ∃ u, advance sl t k p = some u ∧
        u ∈ ord ∧ k ≤ height sl u ∧ CompareKey (keyAt sl u) t < 0 := by
      rw [hq1, endPos_none]
      cases hg : ((levChain sl ord k).takeWhile (belowB sl t)).getLast? with
      | none => exact Or.inl rfl
      | some u =>
        have humem : u ∈ (levChain sl ord k).takeWhile (belowB sl t) :=
          List.mem_of_mem_getLast? hg
        have hub : belowB sl t u = true := List.mem_takeWhile_imp humem
        have hul : u ∈ levChain sl ord k :=
          (List.takeWhile_sublist _).subset humem
        obtain ⟨huo, huh⟩ := levChain_mem.mp hul
        exact Or.inr ⟨u, rfl, huo, by omega, by simpa [belowB] using hub⟩
    have hih := ih (by omega) (advance sl t k p) hpq
    constructor
    · show (walkDown sl t k (advance sl t k p)).2 ++ [advance sl t k p] = _
      rw [hih.1, hq1, List.range_succ, List.map_append]
      rfl
    · intro _
      cases k with
      | zero =>
        constructor
        · show advance sl t 0 p = _
          exact hq1
        · show IsChainFrom sl 0 (advance sl t 0 p) _
          rw [hq1]
          exact hq2
      | succ k' =>
        obtain ⟨hr1, hr2⟩ := hih.2 (by omega)
        exact ⟨hr1, hr2⟩

/-! ### Index-update lemmas and chain transfer between states -/

theorem modIdx_length {α : Type} : ∀ (l : List α) (j : Nat) (f : α → α),
    (modIdx l j f).length = l.length := by
  intro l
  induction l with
  | nil => intro j f; rfl
  | cons x xs ih =>
    intro j f
    cases j with
    | zero => rfl
    | succ j' => simp [modIdx, ih j' f]

theorem modIdx_get {α : Type} : ∀ (l : List α) (j k : Nat) (f : α → α),
    (modIdx l j f)[k]? = if k = j then (l[k]?).map f else l[k]? := by
  intro l
  induction l with
  | nil => intro j k f; simp [modIdx]
  | cons x xs ih =>
    intro j k f
    cases j with
    | zero =>
      cases k with
      | zero => simp [modIdx]
      | succ k' => simp [modIdx]
    | succ j' =>
      cases k with
      | zero => simp [modIdx]
      | succ k' => simpa [modIdx] using ih j' k' f

theorem mapWithIdxAux_getElem? {α β : Type} (f : Nat → α → β) :
    ∀ (l : List α) (k i : Nat),
    (mapWithIdxAux f k l)[i]? = (l[i]?).map (f (k + i)) := by
  intro l
  induction l with
  | nil => intro k i; simp [mapWithIdxAux]
  | cons x xs ih =>
    intro k i
    cases i with
    | zero => simp [mapWithIdxAux]
    | succ i' =>
      simp only [mapWithIdxAux, List.getElem?_cons_succ]
      rw [ih (k + 1) i']
      have he : k + 1 + i' = k + (i' + 1) := by omega
      rw [he]

theorem getD_map_range (f : Nat → Option Nat) (k i : Nat) :
    ((List.range k).map f).getD i none = if i < k then f i else none := by
  rw [List.getD_eq_getElem?_getD, List.getElem?_map]
  by_cases h : i < k
  · rw [List.getElem?_range h]
    simp [h]
  · have : (List.range k)[i]? = none := by
      rw [List.getElem?_eq_none]
      simpa using by omega
    rw [this]
    simp [h]

/-- A chain segment survives a state change that preserves every forward
pointer it reads (the start and every visited node except the endpoint). -/
theorem IsChainSeg.congr_seg {sl sl' : SkipList} {i : Nat} :
    ∀ {l : List Nat} {p q : Option Nat}, IsChainSeg sl i p l q →
    (∀ r : Option Nat, (r = p ∨ ∃ x ∈ l.dropLast, r = some x) →
      nextPtr sl' r i = nextPtr sl r i) →
    IsChainSeg sl' i p l q := by
  intro l
  induction l with
  | nil =>
    intro p q h _
    cases h
    exact IsChainSeg.nil p
  | cons j js ih =>
    intro p q h hptr
    cases h with
    | cons hp htail =>
      cases js with
      | nil =>
        cases htail
        exact IsChainSeg.cons (by rw [hptr p (Or.inl rfl)]; exact hp)
          (IsChainSeg.nil (some j))
      | cons y ys =>
        refine IsChainSeg.cons (by rw [hptr p (Or.inl rfl)]; exact hp)
          (ih htail ?_)
        intro r hr
        apply hptr
        rcases hr with rfl | ⟨x, hx, rfl⟩
        · exact Or.inr ⟨j, by simp, rfl⟩
        · refine Or.inr ⟨x, ?_, rfl⟩
          have hd : (j :: y :: ys).dropLast = j :: (y :: ys).dropLast := rfl
          rw [hd]
          exact List.mem_cons_of_mem j hx

/-- A whole chain survives a state change preserving the pointers at its
start and at every node on it. -/
theorem IsChainFrom.congr_from {sl sl' : SkipList} {i : Nat} {l : List Nat}
    {p : Option Nat} (h : IsChainFrom sl i p l)
    (hptr : ∀ r : Option Nat, (r = p ∨ ∃ x ∈ l, r = some x) →
      nextPtr sl' r i = nextPtr sl r i) :
    IsChainFrom sl' i p l := by
  obtain ⟨hseg, hend⟩ := h
  have hsub : ∀ x ∈ l.dropLast, x ∈ l := fun x hx =>
    (List.dropLast_sublist l).subset hx
  refine ⟨hseg.congr_seg ?_, ?_⟩
  · intro r hr
    apply hptr
    rcases hr with rfl | ⟨x, hx, rfl⟩
    · exact Or.inl rfl
    · exact Or.inr ⟨x, hsub x hx, rfl⟩
  · rw [hptr (endPos p l) ?_]
    · exact hend
    · cases hl : l.getLast? with
      | none =>
        rw [endPos, hl]
        exact Or.inl rfl
      | some x =>
        rw [endPos, hl]
        exact Or.inr ⟨x, List.mem_of_mem_getLast? hl, rfl⟩

/-- In a state with identical pointers, chains are identical. -/
theorem IsChainFrom.congr_all {sl sl' : SkipList} {i : Nat} {l : List Nat}
    {p : Option Nat} (h : IsChainFrom sl i p l)
    (hptr : ∀ (r : Option Nat) (k : Nat), nextPtr sl' r k = nextPtr sl r k) :
    IsChainFrom sl' i p l :=
  h.congr_from (fun r _ => hptr r i)

/-! ### Sorted-chain consequences and the walk positions -/

/-- On a sorted chain nothing in the `dropWhile` suffix is below `t`. -/
theorem sorted_dropWhile_not_below {sl : SkipList} {t : String} {l : List Nat}
    (hsort : l.Pairwise (fun a b => CompareKey (keyAt sl a) (keyAt sl b) = -1)) :
    ∀ x ∈ l.dropWhile (belowB sl t), ¬ CompareKey (keyAt sl x) t < 0 := by
  intro x hx
  cases hd : l.dropWhile (belowB sl t) with
  | nil => rw [hd] at hx; cases hx
  | cons y ys =>
    rw [hd] at hx
    have hy : belowB sl t y = false := by
      have hh := List.head?_dropWhile_not (belowB sl t) l
      rw [hd] at hh
      simpa using hh
    have hy' : ¬ CompareKey (keyAt sl y) t < 0 := by simpa [belowB] using hy
    have hsort' : (y :: ys).Pairwise
        (fun a b => CompareKey (keyAt sl a) (keyAt sl b) = -1) := by
      have hs : List.Sublist (l.dropWhile (belowB sl t)) l :=
        List.dropWhile_sublist _
      rw [hd] at hs
      exact hsort.sublist hs
    rcases List.mem_cons.mp hx with rfl | hxs
    · exact hy'
    · intro hbx
      have hyx : CompareKey (keyAt sl y) (keyAt sl x) = -1 :=
        (List.pairwise_cons.mp hsort').1 x hxs
      have hyt : CompareKey (keyAt sl y) t = -1 :=
        CompareKey_lt_of_lt_of_le hyx (by omega)
      omega

/-- With no matching key on the chain, the `dropWhile` suffix is strictly
above the target. -/
theorem sorted_dropWhile_above {sl : SkipList} {t : String} {l : List Nat}
    (hsort : l.Pairwise (fun a b => CompareKey (keyAt sl a) (keyAt sl b) = -1))
    (hnm : ∀ j ∈ l, CompareKey (keyAt sl j) t ≠ 0) :
    ∀ x ∈ l.dropWhile (belowB sl t), CompareKey t (keyAt sl x) = -1 := by
  intro x hx
  have h1 := sorted_dropWhile_not_below hsort x hx
  have h2 : x ∈ l := (List.dropWhile_sublist _).subset hx
  have h3 := hnm x h2
  have hsw := CompareKey_swap t (keyAt sl x)
  rcases CompareKey_cases (keyAt sl x) t with h | h | h <;> omega

/-- A matching key is exactly the head of the `dropWhile` suffix. -/
theorem head_match {sl : SkipList} {t : String} {l : List Nat}
    (hsort : l.Pairwise (fun a b => CompareKey (keyAt sl a) (keyAt sl b) = -1))
    {j : Nat} (hj : j ∈ l) (h0 : CompareKey (keyAt sl j) t = 0) :
    (l.dropWhile (belowB sl t)).head? = some j := by
  have hjd : j ∈ l.dropWhile (belowB sl t) := by
    have hsplit : j ∈ l.takeWhile (belowB sl t) ++ l.dropWhile (belowB sl t) := by
      rw [List.takeWhile_append_dropWhile]
      exact hj
    rcases List.mem_append.mp hsplit with h | h
    · have hb := List.mem_takeWhile_imp h
      simp [belowB] at hb
      omega
    · exact h
  cases hd : l.dropWhile (belowB sl t) with
  | nil => rw [hd] at hjd; cases hjd
  | cons y ys =>
    rw [hd] at hjd
    rcases List.mem_cons.mp hjd with rfl | hjs
    · rfl
    · exfalso
      have hy : belowB sl t y = false := by
        have hh := List.head?_dropWhile_not (belowB sl t) l
        rw [hd] at hh
        simpa using hh
      have hsort' : (y :: ys).Pairwise
          (fun a b => CompareKey (keyAt sl a) (keyAt sl b) = -1) := by
        have hs : List.Sublist (l.dropWhile (belowB sl t)) l :=
          List.dropWhile_sublist _
        rw [hd] at hs
        exact hsort.sublist hs
      have hyj : CompareKey (keyAt sl y) (keyAt sl j) = -1 :=
        (List.pairwise_cons.mp hsort').1 j hjs
      have hyt : CompareKey (keyAt sl y) t = -1 :=
        CompareKey_lt_of_lt_of_le hyj (le_of_eq h0)
      simp [belowB] at hy
      omega

/-- The position the walk records at level `i`: the last node of the
level-`i` chain that is below the target (`none` = head). -/
def walkPos (sl : SkipList) (ord : List Nat) (t : String) (i : Nat) : Option Nat :=
  endPos none ((levChain sl ord i).takeWhile (belowB sl t))

theorem walkPos_spec {sl : SkipList} {ord : List Nat} (t : String) (i : Nat) :
    walkPos sl ord t i = none ∨
    ∃ u, walkPos sl ord t i = some u ∧ u ∈ ord ∧ i < height sl u ∧
      CompareKey (keyAt sl u) t < 0 := by
  rw [walkPos, endPos_none]
  cases hg : ((levChain sl ord i).takeWhile (belowB sl t)).getLast? with
  | none => exact Or.inl rfl
  | some u =>
    have humem : u ∈ (levChain sl ord i).takeWhile (belowB sl t) :=
      List.mem_of_mem_getLast? hg
    have hub : belowB sl t u = true := List.mem_takeWhile_imp humem
    have hul : u ∈ levChain sl ord i := (List.takeWhile_sublist _).subset humem
    obtain ⟨huo, huh⟩ := levChain_mem.mp hul
    exact Or.inr ⟨u, rfl, huo, huh, by simpa [belowB] using hub⟩

theorem levChain_nil_of_level_le {sl : SkipList} {ord : List Nat}
    (inv : Inv sl) (d : InvData sl ord) {i : Nat} (h : sl.level ≤ i) :
    levChain sl ord i = [] := by
  rw [levChain, List.filter_eq_nil_iff]
  intro j hj
  have := (inv.hts j (d.memLt j hj)).2
  simp
  omega

theorem walkPos_none_of_level_le {sl : SkipList} {ord : List Nat}
    (inv : Inv sl) (d : InvData sl ord) (t : String) {i : Nat}
    (h : sl.level ≤ i) : walkPos sl ord t i = none := by
  rw [walkPos, levChain_nil_of_level_le inv d h]
  rfl

/-- Each level's chain splits at the walk position. -/
theorem levChain_split {sl : SkipList} {ord : List Nat} (d : InvData sl ord)
    (t : String) {i : Nat} (hi : i < sl.maxLevel) :
    IsChainSeg sl i none ((levChain sl ord i).takeWhile (belowB sl t))
      (walkPos sl ord t i) ∧
    IsChainFrom sl i (walkPos sl ord t i)
      ((levChain sl ord i).dropWhile (belowB sl t)) := by
  have h : IsChainFrom sl i none
      ((levChain sl ord i).takeWhile (belowB sl t) ++
        (levChain sl ord i).dropWhile (belowB sl t)) := by
    rw [List.takeWhile_append_dropWhile]
    exact d.chains i hi
  obtain ⟨h1, h2⟩ := h.split_append
  exact ⟨h1, h2⟩

/-- The update vector recorded by the search of `Set`. -/
theorem walk_ups_getD {sl : SkipList} {ord : List Nat} (d : InvData sl ord)
    (t : String) (i : Nat) :
    ((walkDown sl t sl.maxLevel none).2).getD i none =
      (if i < sl.maxLevel then walkPos sl ord t i else none) := by
  have h := (walkDown_spec d t sl.maxLevel (le_refl _) none (Or.inl rfl)).1
  rw [h, getD_map_range]
  by_cases hi : i < sl.maxLevel <;> simp [hi, walkPos]

/-- The final position and level-0 suffix of the search of `Set`. -/
theorem walk_final {sl : SkipList} {ord : List Nat} (inv : Inv sl)
    (d : InvData sl ord) (t : String) :
    (walkDown sl t sl.maxLevel none).1 = walkPos sl ord t 0 ∧
    IsChainFrom sl 0 (walkDown sl t sl.maxLevel none).1
      (ord.dropWhile (belowB sl t)) ∧
    nextPtr sl (walkDown sl t sl.maxLevel none).1 0 =
      (ord.dropWhile (belowB sl t)).head? := by
  have hML : 1 ≤ sl.maxLevel := le_trans inv.lvlGe inv.lvlLe
  have h := (walkDown_spec d t sl.maxLevel (le_refl _) none (Or.inl rfl)).2 hML
  have hz := levChain_zero inv d
  have h2 : IsChainFrom sl 0 (walkDown sl t sl.maxLevel none).1
      (ord.dropWhile (belowB sl t)) := by
    have := h.2
    rw [hz] at this
    exact this
  refine ⟨?_, h2, h2.nextPtr_eq_head⟩
  rw [h.1, walkPos, hz]

theorem overwriteRange_getD (l : List (Option Nat)) (a b i : Nat) :
    (overwriteRange l a b).getD i none =
      if a ≤ i ∧ i < b ∧ i < l.length then none else l.getD i none := by
  unfold overwriteRange
  rw [List.getD_eq_getElem?_getD, mapWithIdxAux_getElem?, List.getD_eq_getElem?_getD]
  cases h : l[i]? with
  | none =>
    have hlen : ¬ i < l.length := by
      have := List.getElem?_eq_none_iff.mp h
      omega
    simp [hlen]
  | some x =>
    have hlen : i < l.length := by
      by_contra hc
      rw [List.getElem?_eq_none (by omega)] at h
      cases h
    by_cases hab : a ≤ i ∧ i < b <;> simp [hab, hlen]

/-! ### Pointwise characterization of the splice loop -/

/-- `nextPtr` on a raw (headNext, nodes) pair. -/
def ptrOf (hn : List (Option Nat)) (ns : List Node) (p : Option Nat) (i : Nat) :
    Option Nat :=
  match p with
  | none => hn.getD i none
  | some j =>
    match ns[j]? with
    | none => none
    | some nd => nd.next.getD i none

theorem nextPtr_eq_ptrOf (sl : SkipList) (p : Option Nat) (i : Nat) :
    nextPtr sl p i = ptrOf sl.headNext sl.nodes p i := rfl

/-- Projections used to state that splicing keeps entries and heights. -/
def nodeEntry (nd : Node) : Entry := nd.entry

/-- The number of forward links of a node. -/
def nodeHeight (nd : Node) : Nat := nd.next.length

/-- A slot write changes exactly the addressed forward pointer. -/
theorem setNextSlot_ptr (hn : List (Option Nat)) (ns : List Node)
    (p0 : Option Nat) (i0 : Nat) (v : Option Nat)
    (hvalid : match p0 with
      | none => i0 < hn.length
      | some u => ∃ nd, ns[u]? = some nd ∧ i0 < nd.next.length) :
    ∀ p i, ptrOf (setNextSlot hn ns p0 i0 v).1 (setNextSlot hn ns p0 i0 v).2 p i =
      if p = p0 ∧ i = i0 then v else ptrOf hn ns p i := by
  intro p i
  cases p0 with
  | none =>
    cases p with
    | none =>
      simp only [setNextSlot, ptrOf]
      rw [List.getD_eq_getElem?_getD, List.getElem?_set, List.getD_eq_getElem?_getD]
      by_cases hi : i = i0
      · subst hi
        have hlen : i < hn.length := hvalid
        simp [hlen]
      · simp [hi, Ne.symm hi]
    | some j => simp [setNextSlot, ptrOf]
  | some u =>
    cases p with
    | none => simp [setNextSlot, ptrOf]
    | some j =>
      simp only [setNextSlot, ptrOf]
      rw [modIdx_get]
      by_cases hj : j = u
      · subst hj
        obtain ⟨nd, hnd, hlt⟩ := hvalid
        rw [if_pos rfl, hnd]
        simp only [Option.map_some']
        show (nd.next.set i0 v).getD i none = _
        rw [List.getD_eq_getElem?_getD, List.getElem?_set, List.getD_eq_getElem?_getD]
        by_cases hi : i = i0
        · subst hi
          simp [hlt, hnd]
        · simp [hi, Ne.symm hi, hnd]
      · rw [if_neg hj]
        simp [hj]

theorem setNextSlot_len (a : List (Option Nat)) (b : List Node) (p0 : Option Nat)
    (i0 : Nat) (v : Option Nat) :
    (setNextSlot a b p0 i0 v).1.length = a.length ∧
    (setNextSlot a b p0 i0 v).2.length = b.length := by
  cases p0 <;> simp [setNextSlot, modIdx_length]

theorem setNextSlot_shape (a : List (Option Nat)) (b : List Node) (p0 : Option Nat)
    (i0 : Nat) (v : Option Nat) (x : Nat) :
    ((setNextSlot a b p0 i0 v).2)[x]?.map nodeEntry = (b[x]?).map nodeEntry ∧
    ((setNextSlot a b p0 i0 v).2)[x]?.map nodeHeight = (b[x]?).map nodeHeight := by
  cases p0 with
  | none => exact ⟨rfl, rfl⟩
  | some u =>
    show ((modIdx b u _)[x]?).map nodeEntry = _ ∧ ((modIdx b u _)[x]?).map nodeHeight = _
    rw [modIdx_get]
    by_cases hx : x = u
    · rw [if_pos hx]
      cases b[x]? with
      | none => exact ⟨rfl, rfl⟩
      | some nd => exact ⟨rfl, by simp [nodeHeight]⟩
    · rw [if_neg hx]
      exact ⟨rfl, rfl⟩

/-- Shape and pointer characterization of the whole splice loop. -/
theorem spliceAll_spec (hn : List (Option Nat)) (ns : List Node)
    (ups : List (Option Nat)) (n : Nat) :
    ∀ k,
    (∀ i', i' < k → match ups.getD i' none with
      | none => i' < hn.length
      | some u => ∃ nd, ns[u]? = some nd ∧ i' < nd.next.length) →
    (spliceAll hn ns ups n k).1.length = hn.length ∧
    (spliceAll hn ns ups n k).2.length = ns.length ∧
    (∀ x : Nat, ((spliceAll hn ns ups n k).2)[x]?.map nodeEntry = (ns[x]?).map nodeEntry) ∧
    (∀ x : Nat, ((spliceAll hn ns ups n k).2)[x]?.map nodeHeight = (ns[x]?).map nodeHeight) ∧
    (∀ (p : Option Nat) (i : Nat), ptrOf (spliceAll hn ns ups n k).1 (spliceAll hn ns ups n k).2 p i =
      if i < k ∧ p = ups.getD i none then some n else ptrOf hn ns p i) := by
  intro k
  induction k with
  | zero =>
    intro _
    refine ⟨rfl, rfl, fun x => rfl, fun x => rfl, fun p i => ?_⟩
    simp [spliceAll]
  | succ k ih =>
    intro hvalid
    obtain ⟨ih1, ih2, ih3, ih4, ih5⟩ := ih (fun i' hi' => hvalid i' (by omega))
    have hv' : match ups.getD k none with
        | none => k < (spliceAll hn ns ups n k).1.length
        | some u => ∃ nd, ((spliceAll hn ns ups n k).2)[u]? = some nd ∧
            k < nd.next.length := by
      have hv := hvalid k (by omega)
      cases hu : ups.getD k none with
      | none =>
        rw [hu] at hv
        rw [ih1]
        exact hv
      | some u =>
        rw [hu] at hv
        obtain ⟨nd, hnd, hlt⟩ := hv
        have hmap := ih4 u
        rw [hnd] at hmap
        cases hget : ((spliceAll hn ns ups n k).2)[u]? with
        | none => rw [hget] at hmap; cases hmap
        | some nd' =>
          rw [hget] at hmap
          simp only [Option.map_some'] at hmap
          injection hmap with hlen
          refine ⟨nd', hget, ?_⟩
          have hle : nd'.next.length = nd.next.length := hlen
          omega
    have hstep := setNextSlot_ptr (spliceAll hn ns ups n k).1
      (spliceAll hn ns ups n k).2 (ups.getD k none) k (some n) hv'
    constructor
    · show (setNextSlot (spliceAll hn ns ups n k).1 (spliceAll hn ns ups n k).2 (ups.getD k none) k (some n)).1.length = _
      rw [(setNextSlot_len _ _ _ _ _).1, ih1]
    constructor
    · show (setNextSlot (spliceAll hn ns ups n k).1 (spliceAll hn ns ups n k).2 (ups.getD k none) k (some n)).2.length = _
      rw [(setNextSlot_len _ _ _ _ _).2, ih2]
    constructor
    · intro x
      show ((setNextSlot (spliceAll hn ns ups n k).1 (spliceAll hn ns ups n k).2 (ups.getD k none) k (some n)).2)[x]?.map nodeEntry = _
      rw [(setNextSlot_shape _ _ _ _ _ x).1, ih3 x]
    constructor
    · intro x
      show ((setNextSlot (spliceAll hn ns ups n k).1 (spliceAll hn ns ups n k).2 (ups.getD k none) k (some n)).2)[x]?.map nodeHeight = _
      rw [(setNextSlot_shape _ _ _ _ _ x).2, ih4 x]
    · intro p i
      show ptrOf (setNextSlot (spliceAll hn ns ups n k).1 (spliceAll hn ns ups n k).2 (ups.getD k none) k (some n)).1 (setNextSlot (spliceAll hn ns ups n k).1 (spliceAll hn ns ups n k).2 (ups.getD k none) k (some n)).2 p i = _
      rw [hstep p i]
      by_cases hc1 : p = ups.getD k none ∧ i = k
      · obtain ⟨hp, hi⟩ := hc1
        subst hi
        rw [if_pos ⟨hp, rfl⟩, if_pos ⟨by omega, hp⟩]
      · rw [if_neg hc1, ih5 p i]
        by_cases hc2 : i < k ∧ p = ups.getD i none
        · rw [if_pos hc2, if_pos ⟨by omega, hc2.2⟩]
        · rw [if_neg hc2, if_neg ?_]
          intro hc3
          obtain ⟨hik, hp⟩ := hc3
          by_cases hik' : i = k
          · subst hik'
            exact hc1 ⟨hp, rfl⟩
          · exact hc2 ⟨by omega, hp⟩

/-! ### The update branch of `Set` -/

/-- When a `CompareKey`-equal key exists, `Set` takes the in-place update
branch: only the value and tombstone of the matched node change, and the
size moves by the value-length delta. -/
theorem set_update_eq {sl : SkipList} {ord : List Nat} (inv : Inv sl)
    (d : InvData sl ord) (e : Entry) (lvl : Nat)
    {j : Nat} (hj : j ∈ ord) (h0 : CompareKey (keyAt sl j) e.key = 0) :
    sl.set e lvl = { sl with
      size := sl.size + (e.value.length : Int) - ((entryAt sl j).value.length : Int),
      nodes := modIdx sl.nodes j (fun nd => { nd with entry := { nd.entry with
        value := e.value, tombstone := e.tombstone } }) } := by
  have hw := (walk_final inv d e.key).2.2
  have hh := head_match d.sorted hj h0
  show (match nextPtr sl (walkDown sl e.key sl.maxLevel none).1 0 with
    | some j =>
      if CompareKey (keyAt sl j) e.key = 0 then _ else _
    | none => _) = _
  rw [hw, hh]
  simp [h0]

theorem nextPtr_modIdx_entry (sl : SkipList) (j : Nat) (v : List Nat) (tb : Bool) :
    ∀ (p : Option Nat) (i : Nat),
    nextPtr { sl with
      size := sl.size + (v.length : Int) - ((entryAt sl j).value.length : Int),
      nodes := modIdx sl.nodes j (fun nd => { nd with entry := { nd.entry with
        value := v, tombstone := tb } }) } p i = nextPtr sl p i := by
  intro p i
  cases p with
  | none => rfl
  | some x =>
    show (match (modIdx sl.nodes j _)[x]? with
      | none => none
      | some nd => nd.next.getD i none) = _
    rw [modIdx_get]
    by_cases hx : x = j
    · rw [if_pos hx, hx]
      cases h : sl.nodes[j]? with
      | none => simp [nextPtr, h]
      | some nd => simp [nextPtr, h]
    · rw [if_neg hx]
      rfl

/-- All facts about the update branch in one place: frame conditions,
invariant preservation with the same ordering, and the changed entry. -/
theorem set_update_all {sl : SkipList} {ord : List Nat} (inv : Inv sl)
    (d : InvData sl ord) (e : Entry) (lvl : Nat)
    {j : Nat} (hj : j ∈ ord) (h0 : CompareKey (keyAt sl j) e.key = 0) :
    (sl.set e lvl).maxLevel = sl.maxLevel ∧
    (sl.set e lvl).level = sl.level ∧
    (sl.set e lvl).count = sl.count ∧
    (sl.set e lvl).headNext = sl.headNext ∧
    (sl.set e lvl).nodes.length = sl.nodes.length ∧
    (sl.set e lvl).size = sl.size + (e.value.length : Int)
      - ((entryAt sl j).value.length : Int) ∧
    entryAt (sl.set e lvl) j = { entryAt sl j with
      value := e.value, tombstone := e.tombstone } ∧
    (∀ x : Nat, x ≠ j → (sl.set e lvl).nodes[x]? = sl.nodes[x]?) ∧
    (∀ x : Nat, keyAt (sl.set e lvl) x = keyAt sl x) ∧
    (∀ x : Nat, height (sl.set e lvl) x = height sl x) ∧
    Inv (sl.set e lvl) ∧ InvData (sl.set e lvl) ord := by
  have heq := set_update_eq inv d e lvl hj h0
  have hjlt : j < sl.nodes.length := d.memLt j hj
  have hjget : sl.nodes[j]? = some sl.nodes[j] := List.getElem?_eq_getElem hjlt
  have hkey : ∀ x : Nat, keyAt (sl.set e lvl) x = keyAt sl x := by
    intro x
    rw [heq]
    show (match (modIdx sl.nodes j _)[x]? with
      | none => entryZero
      | some nd => nd.entry).key = _
    rw [modIdx_get]
    by_cases hx : x = j
    · rw [if_pos hx, hx, hjget]
      simp [keyAt, entryAt, hjget]
    · rw [if_neg hx]
      rfl
  have hht : ∀ x : Nat, height (sl.set e lvl) x = height sl x := by
    intro x
    rw [heq]
    show (match (modIdx sl.nodes j _)[x]? with
      | none => 0
      | some nd => nd.next.length) = _
    rw [modIdx_get]
    by_cases hx : x = j
    · rw [if_pos hx, hx, hjget]
      simp [height, hjget]
    · rw [if_neg hx]
      rfl
  have hptr : ∀ (p : Option Nat) (i : Nat),
      nextPtr (sl.set e lvl) p i = nextPtr sl p i := by
    intro p i
    rw [heq]
    exact nextPtr_modIdx_entry sl j e.value e.tombstone p i
  have hlen : (sl.set e lvl).nodes.length = sl.nodes.length := by
    rw [heq]
    exact modIdx_length _ _ _
  have hd2 : InvData (sl.set e lvl) ord := by
    have hm : (sl.set e lvl).maxLevel = sl.maxLevel := by rw [heq]
    exact {
      chain0 := d.chain0.congr_all hptr
      sorted := by
        refine d.sorted.imp ?_
        intro a b h
        rw [hkey a, hkey b]
        exact h
      memLt := fun x hx => by rw [hlen]; exact d.memLt x hx
      complete := fun x hx => d.complete x (by rw [← hlen]; exact hx)
      chains := fun i hi => by
        show IsChainFrom (sl.set e lvl) i none (levChain (sl.set e lvl) ord i)
        have hfc : levChain (sl.set e lvl) ord i = levChain sl ord i := by
          unfold levChain
          refine List.filter_congr ?_
          intro x _
          rw [hht x]
        rw [hfc]
        exact (d.chains i (by omega)).congr_all hptr }
  refine ⟨by rw [heq], by rw [heq], by rw [heq], by rw [heq], hlen, by rw [heq],
    ?_, ?_, hkey, hht, ?_, hd2⟩
  · rw [heq]
    show (match (modIdx sl.nodes j _)[j]? with
      | none => entryZero
      | some nd => nd.entry) = _
    rw [modIdx_get, if_pos rfl, hjget]
    simp [entryAt, hjget]
  · intro x hx
    rw [heq]
    show (modIdx sl.nodes j _)[x]? = _
    rw [modIdx_get, if_neg hx]
  · have hl : (sl.set e lvl).level = sl.level := by rw [heq]
    exact {
      hnLen := by rw [heq]; exact inv.hnLen
      lvlGe := by rw [heq]; exact inv.lvlGe
      lvlLe := by rw [heq]; exact inv.lvlLe
      cnt := by rw [hlen, heq]; exact inv.cnt
      hts := fun x hx => by
        rw [hht x, hl]
        exact inv.hts x (by rw [← hlen]; exact hx)
      ordEx := ⟨ord, hd2⟩ }

/-! ### Rebuilding chains after an insert splice -/

theorem getLast_not_mem_dropLast {l : List Nat} (h : l.Nodup) {x : Nat}
    (hx : l.getLast? = some x) : x ∉ l.dropLast := by
  intro hmem
  have hne : l ≠ [] := by
    intro he
    subst he
    cases hx
  have hx' : l.getLast hne = x := by
    have hg := List.getLast?_eq_getLast l hne
    rw [hg] at hx
    injection hx
  have hdl := List.dropLast_append_getLast hne
  rw [← hdl] at h
  rw [List.nodup_append] at h
  exact absurd (by simp [hx']) (h.2.2 hmem)

/-- After splicing the new node `n` between the below-target and
not-below-target parts of a level chain, the chain at that level is the
old chain with `n` inserted at the boundary. -/
theorem chain_splice_level {sl sl' : SkipList} {i : Nat} {tw dw : List Nat} {n : Nat}
    (htw : IsChainSeg sl i none tw (endPos none tw))
    (hdw : IsChainFrom sl i (endPos none tw) dw)
    (hnd : (tw ++ dw).Nodup)
    (hpres : ∀ r : Option Nat,
      (r = none ∨ ∃ x ∈ tw ++ dw, r = some x) → r ≠ endPos none tw →
      nextPtr sl' r i = nextPtr sl r i)
    (hsplice : nextPtr sl' (endPos none tw) i = some n)
    (hnew : nextPtr sl' (some n) i = dw.head?) :
    IsChainFrom sl' i none (tw ++ n :: dw) := by
  have hndtw : tw.Nodup := (List.nodup_append.mp hnd).1
  have hdis : ∀ y ∈ dw, ∀ x ∈ tw, y ≠ x := by
    intro y hy x hx he
    subst he
    exact absurd hy ((List.nodup_append.mp hnd).2.2 hx)
  have hend_ne : ∀ y ∈ dw, some y ≠ endPos none tw := by
    intro y hy
    rw [endPos_none]
    cases hg : tw.getLast? with
    | none => simp
    | some x =>
      have hxmem := List.mem_of_mem_getLast? hg
      simp only [Option.some.injEq, ne_eq]
      intro he
      exact hdis y hy x hxmem he
  have htw' : IsChainSeg sl' i none tw (endPos none tw) := by
    cases htwe : tw with
    | nil => exact IsChainSeg.nil none
    | cons a as =>
      rw [htwe] at htw
      refine htw.congr_seg ?_
      intro r hr
      apply hpres
      · rcases hr with rfl | ⟨x, hx, rfl⟩
        · exact Or.inl rfl
        · refine Or.inr ⟨x, ?_, rfl⟩
          rw [htwe]
          exact List.mem_append_left _ ((List.dropLast_sublist _).subset hx)
      · rcases hr with rfl | ⟨x, hx, rfl⟩
        · rw [endPos_none, htwe]
          cases hg : (a :: as).getLast? with
          | none => simp at hg
          | some z => simp
        · rw [htwe, endPos_none]
          cases hg : (a :: as).getLast? with
          | none => simp at hg
          | some z =>
            simp only [Option.some.injEq, ne_eq]
            intro he
            subst he
            exact getLast_not_mem_dropLast (htwe ▸ hndtw) hg hx
  cases dw with
  | nil =>
    have he : endPos none (tw ++ [n]) = some n := by
      rw [endPos_append]
      rfl
    refine ⟨?_, ?_⟩
    · rw [he]
      exact htw'.append (IsChainSeg.cons hsplice (IsChainSeg.nil (some n)))
    · rw [he, hnew]
      rfl
  | cons d0 rest =>
    obtain ⟨hdseg, hdend⟩ := hdw
    cases hdseg with
    | cons hp0 htail =>
      rw [endPos_cons] at htail hdend
      have htail' : IsChainSeg sl' i (some d0) rest (endPos (some d0) rest) := by
        refine htail.congr_seg ?_
        intro r hr
        apply hpres
        · rcases hr with rfl | ⟨x, hx, rfl⟩
          · exact Or.inr ⟨d0, List.mem_append_right _ (List.mem_cons_self _ _), rfl⟩
          · exact Or.inr ⟨x, List.mem_append_right _
              (List.mem_cons_of_mem _ ((List.dropLast_sublist _).subset hx)), rfl⟩
        · rcases hr with rfl | ⟨x, hx, rfl⟩
          · exact hend_ne d0 (List.mem_cons_self _ _)
          · exact hend_ne x
              (List.mem_cons_of_mem _ ((List.dropLast_sublist _).subset hx))
      have he : endPos none (tw ++ n :: d0 :: rest) = endPos (some d0) rest := by
        rw [endPos_append, endPos_cons, endPos_cons]
      have hmem : ∃ y ∈ d0 :: rest, endPos (some d0) rest = some y := by
        cases hg : rest.getLast? with
        | none => exact ⟨d0, List.mem_cons_self _ _, by simp [endPos, hg]⟩
        | some y => exact ⟨y, List.mem_cons_of_mem _ (List.mem_of_mem_getLast? hg),
            by simp [endPos, hg]⟩
      refine ⟨?_, ?_⟩
      · rw [he]
        refine htw'.append ?_
        refine IsChainSeg.cons hsplice ?_
        refine IsChainSeg.cons ?_ htail'
        rw [hnew]
        rfl
      · rw [he]
        obtain ⟨y, hy, hye⟩ := hmem
        rw [hye, hpres (some y) (Or.inr ⟨y, List.mem_append_right _ hy, rfl⟩)
          (hend_ne y hy), ← hye]
        exact hdend

/-! ### The insert branch of `Set` -/

/-- When no `CompareKey`-equal key is stored, `Set` takes the insert path. -/
theorem set_insert_eq {sl : SkipList} {ord : List Nat} (inv : Inv sl)
    (d : InvData sl ord) (e : Entry) (lvl : Nat)
    (hnm : ∀ j ∈ ord, CompareKey (keyAt sl j) e.key ≠ 0) :
    sl.set e lvl = sl.insertNew e lvl (walkDown sl e.key sl.maxLevel none).2 := by
  have hw := (walk_final inv d e.key).2.2
  show (match nextPtr sl (walkDown sl e.key sl.maxLevel none).1 0 with
    | some j =>
      if CompareKey (keyAt sl j) e.key = 0 then _ else _
    | none => _) = _
  rw [hw]
  cases hh : (ord.dropWhile (belowB sl e.key)).head? with
  | none => rfl
  | some j =>
    have hjmem : j ∈ ord := by
      have hjm : j ∈ ord.dropWhile (belowB sl e.key) := by
        cases hc : ord.dropWhile (belowB sl e.key) with
        | nil => rw [hc] at hh; cases hh
        | cons y ys =>
          rw [hc] at hh
          injection hh with h
          subst h
          exact List.mem_cons_self _ _
      exact (List.dropWhile_sublist _).subset hjm
    simp [hnm j hjmem]

/-- On a sorted list, taking/dropping the below-target part commutes with
any filter. -/
theorem filter_split_comm {sl : SkipList} {t : String} {ord : List Nat}
    (hsort : ord.Pairwise (fun a b => CompareKey (keyAt sl a) (keyAt sl b) = -1))
    (pB : Nat → Bool) :
    (ord.filter pB).takeWhile (belowB sl t) =
      (ord.takeWhile (belowB sl t)).filter pB ∧
    (ord.filter pB).dropWhile (belowB sl t) =
      (ord.dropWhile (belowB sl t)).filter pB := by
  have hsplit : ord = ord.takeWhile (belowB sl t) ++ ord.dropWhile (belowB sl t) :=
    (List.takeWhile_append_dropWhile _ _).symm
  have halltw : ∀ x ∈ (ord.takeWhile (belowB sl t)).filter pB,
      belowB sl t x = true := by
    intro x hx
    exact List.mem_takeWhile_imp (List.mem_of_mem_filter hx)
  have hdwf : ((ord.dropWhile (belowB sl t)).filter pB).takeWhile (belowB sl t) = [] ∧
      ((ord.dropWhile (belowB sl t)).filter pB).dropWhile (belowB sl t) =
        (ord.dropWhile (belowB sl t)).filter pB := by
    cases hc : (ord.dropWhile (belowB sl t)).filter pB with
    | nil => simp
    | cons y ys =>
      have hy : y ∈ (ord.dropWhile (belowB sl t)).filter pB := by
        rw [hc]
        exact List.mem_cons_self _ _
      have hyd : y ∈ ord.dropWhile (belowB sl t) := List.mem_of_mem_filter hy
      have hnb := sorted_dropWhile_not_below hsort y hyd
      have hyB : belowB sl t y = false := by
        simp [belowB]
        omega
      constructor
      · rw [List.takeWhile_cons, hyB]
        simp
      · rw [List.dropWhile_cons, hyB]
        simp
  constructor
  · conv_lhs => rw [hsplit]
    rw [List.filter_append, takeWhile_append_all _ _ halltw, hdwf.1, List.append_nil]
  · conv_lhs => rw [hsplit]
    rw [List.filter_append, dropWhile_append_all _ _ halltw, hdwf.2]

/-- `entryAt` only depends on the entry projection of the arena. -/
theorem entryAt_of_map_eq {sl sl' : SkipList} (x : Nat)
    (h : ((sl'.nodes[x]?).map nodeEntry) = ((sl.nodes[x]?).map nodeEntry)) :
    entryAt sl' x = entryAt sl x := by
  unfold entryAt
  cases h1 : sl'.nodes[x]? with
  | none =>
    rw [h1] at h
    cases h2 : sl.nodes[x]? with
    | none => rfl
    | some nd => rw [h2] at h; cases h
  | some nd' =>
    rw [h1] at h
    cases h2 : sl.nodes[x]? with
    | none => rw [h2] at h; cases h
    | some nd =>
      rw [h2] at h
      simp only [Option.map_some'] at h
      injection h

/-- `height` only depends on the link-count projection of the arena. -/
theorem height_of_map_eq {sl sl' : SkipList} (x : Nat)
    (h : ((sl'.nodes[x]?).map nodeHeight) = ((sl.nodes[x]?).map nodeHeight)) :
    height sl' x = height sl x := by
  unfold height
  cases h1 : sl'.nodes[x]? with
  | none =>
    rw [h1] at h
    cases h2 : sl.nodes[x]? with
    | none => rfl
    | some nd => rw [h2] at h; cases h
  | some nd' =>
    rw [h1] at h
    cases h2 : sl.nodes[x]? with
    | none => rw [h2] at h; cases h
    | some nd =>
      rw [h2] at h
      simp only [Option.map_some'] at h
      injection h

/-- The node allocated by the insert path of `Set`. -/
def newNodeOf (sl : SkipList) (e : Entry) (lvl : Nat) (U : List (Option Nat)) : Node :=
  { entry := e, next := (List.range lvl).map (fun i => nextPtr sl (U.getD i none) i) }

/-- Shape and pointer facts of the insert path: sizes, the new node's
entry and height, the old nodes' entries and heights, and the full
pointer map of the new state (`n = sl.nodes.length` is the new index). -/
theorem insert_shape {sl : SkipList} {ord : List Nat} (inv : Inv sl)
    (d : InvData sl ord) (e : Entry) (lvl : Nat)
    (h1 : 1 ≤ lvl) (h2 : lvl ≤ sl.maxLevel)
    (hnm : ∀ j ∈ ord, CompareKey (keyAt sl j) e.key ≠ 0) :
    (sl.set e lvl).maxLevel = sl.maxLevel ∧
    (sl.set e lvl).level = (if sl.level < lvl then lvl else sl.level) ∧
    (sl.set e lvl).count = sl.count + 1 ∧
    (sl.set e lvl).headNext.length = sl.headNext.length ∧
    (sl.set e lvl).nodes.length = sl.nodes.length + 1 ∧
    (∀ x : Nat, x < sl.nodes.length →
      entryAt (sl.set e lvl) x = entryAt sl x ∧
      height (sl.set e lvl) x = height sl x) ∧
    entryAt (sl.set e lvl) sl.nodes.length = e ∧
    height (sl.set e lvl) sl.nodes.length = lvl ∧
    (∀ p : Option Nat, (p = none ∨ ∃ x, p = some x ∧ x < sl.nodes.length) →
      ∀ i : Nat, nextPtr (sl.set e lvl) p i =
        (if i < lvl ∧ p = walkPos sl ord e.key i then some sl.nodes.length
         else nextPtr sl p i)) ∧
    (∀ i : Nat, nextPtr (sl.set e lvl) (some sl.nodes.length) i =
      (if i < lvl then nextPtr sl (walkPos sl ord e.key i) i else none)) := by
  have hupslen : (walkDown sl e.key sl.maxLevel none).2.length = sl.maxLevel := by
    rw [(walkDown_spec d e.key sl.maxLevel (le_refl _) none (Or.inl rfl)).1]
    simp
  set UU := (if sl.level < lvl then
      overwriteRange (walkDown sl e.key sl.maxLevel none).2 sl.level lvl
    else (walkDown sl e.key sl.maxLevel none).2) with hUU
  have hU : ∀ i : Nat, UU.getD i none =
      (if i < sl.maxLevel then walkPos sl ord e.key i else none) := by
    intro i
    rw [hUU]
    by_cases hc : sl.level < lvl
    · rw [if_pos hc, overwriteRange_getD, hupslen, walk_ups_getD d e.key i]
      by_cases hr : sl.level ≤ i ∧ i < lvl ∧ i < sl.maxLevel
      · rw [if_pos hr, if_pos hr.2.2, walkPos_none_of_level_le inv d e.key hr.1]
      · rw [if_neg hr]
    · rw [if_neg hc, walk_ups_getD d e.key i]
  have hvalid : ∀ i', i' < lvl →
      match UU.getD i' none with
      | none => i' < sl.headNext.length
      | some u => ∃ nd, sl.nodes[u]? = some nd ∧ i' < nd.next.length := by
    intro i' hi'
    rw [hU i', if_pos (show i' < sl.maxLevel by omega)]
    rcases walkPos_spec e.key i' with hw | ⟨u, hw, huo, huh, hub⟩
    · rw [hw]
      show i' < sl.headNext.length
      have hhn := inv.hnLen
      omega
    · rw [hw]
      show ∃ nd, sl.nodes[u]? = some nd ∧ i' < nd.next.length
      have hu : u < sl.nodes.length := d.memLt u huo
      have hg : sl.nodes[u]? = some sl.nodes[u] := List.getElem?_eq_getElem hu
      refine ⟨sl.nodes[u], hg, ?_⟩
      have hh : height sl u = sl.nodes[u].next.length := by simp [height, hg]
      omega
  obtain ⟨hs1, hs2, hs3, hs4, hs5⟩ :=
    spliceAll_spec sl.headNext sl.nodes UU sl.nodes.length lvl hvalid
  have heq : sl.set e lvl =
      sl.insertNew e lvl (walkDown sl e.key sl.maxLevel none).2 :=
    set_insert_eq inv d e lvl hnm
  have hrec : sl.insertNew e lvl (walkDown sl e.key sl.maxLevel none).2 = {
      maxLevel := sl.maxLevel
      level := if sl.level < lvl then lvl else sl.level
      size := sl.size + (e.key.utf8ByteSize : Int) + (e.value.length : Int)
        + 1 + 8 + (lvl : Int) * 8
      count := sl.count + 1
      headNext := (spliceAll sl.headNext sl.nodes UU sl.nodes.length lvl).1
      nodes := (spliceAll sl.headNext sl.nodes UU sl.nodes.length lvl).2 ++
        [newNodeOf sl e lvl UU] } := rfl
  rw [heq, hrec]
  have hnlen : ((spliceAll sl.headNext sl.nodes UU sl.nodes.length lvl).2 ++
      [newNodeOf sl e lvl UU]).length
      = sl.nodes.length + 1 := by
    rw [List.length_append, hs2]
    rfl
  have happx : ∀ x : Nat, x < sl.nodes.length →
      ((spliceAll sl.headNext sl.nodes UU sl.nodes.length lvl).2 ++
        [newNodeOf sl e lvl UU])[x]? =
      (spliceAll sl.headNext sl.nodes UU sl.nodes.length lvl).2[x]? := by
    intro x hx
    rw [List.getElem?_append]
    rw [if_pos (by omega)]
  have happn :
      ((spliceAll sl.headNext sl.nodes UU sl.nodes.length lvl).2 ++
        [newNodeOf sl e lvl UU])[sl.nodes.length]? =
      some (newNodeOf sl e lvl UU) := by
    rw [List.getElem?_append]
    rw [if_neg (by omega), hs2]
    simp
  refine ⟨rfl, rfl, rfl, hs1, hnlen, ?_, ?_, ?_, ?_, ?_⟩
  · intro x hx
    constructor
    · refine entryAt_of_map_eq x ?_
      show ((spliceAll sl.headNext sl.nodes UU sl.nodes.length lvl).2 ++
        [newNodeOf sl e lvl UU])[x]?.map nodeEntry = _
      rw [happx x hx]
      exact hs3 x
    · refine height_of_map_eq x ?_
      show ((spliceAll sl.headNext sl.nodes UU sl.nodes.length lvl).2 ++
        [newNodeOf sl e lvl UU])[x]?.map nodeHeight = _
      rw [happx x hx]
      exact hs4 x
  · show (match ((spliceAll sl.headNext sl.nodes UU sl.nodes.length lvl).2 ++
        [newNodeOf sl e lvl UU])[sl.nodes.length]? with
      | none => entryZero
      | some nd => nd.entry) = e
    rw [happn]
    rfl
  · show (match ((spliceAll sl.headNext sl.nodes UU sl.nodes.length lvl).2 ++
        [newNodeOf sl e lvl UU])[sl.nodes.length]? with
      | none => 0
      | some nd => nd.next.length) = lvl
    rw [happn]
    simp [newNodeOf]
  · intro p hp i
    have hstep := hs5 p i
    rcases hp with rfl | ⟨x, rfl, hx⟩
    · show ptrOf (spliceAll sl.headNext sl.nodes UU sl.nodes.length lvl).1
        (spliceAll sl.headNext sl.nodes UU sl.nodes.length lvl).2 none i = _
      rw [hstep]
      by_cases hil : i < lvl
      · rw [hU i, if_pos (show i < sl.maxLevel by omega)]
        by_cases hpw : (none : Option Nat) = walkPos sl ord e.key i
        · rw [if_pos ⟨hil, hpw⟩, if_pos ⟨hil, hpw⟩]
        · rw [if_neg (fun hc => hpw hc.2), if_neg (fun hc => hpw hc.2)]
          rfl
      · rw [if_neg (fun hc => hil hc.1), if_neg (fun hc => hil hc.1)]
        rfl
    · show (match ((spliceAll sl.headNext sl.nodes UU sl.nodes.length lvl).2 ++
        [newNodeOf sl e lvl UU])[x]? with
        | none => none
        | some nd => nd.next.getD i none) = _
      rw [happx x hx]
      show ptrOf (spliceAll sl.headNext sl.nodes UU sl.nodes.length lvl).1
        (spliceAll sl.headNext sl.nodes UU sl.nodes.length lvl).2 (some x) i = _
      rw [hstep]
      by_cases hil : i < lvl
      · rw [hU i, if_pos (show i < sl.maxLevel by omega)]
        by_cases hpw : (some x : Option Nat) = walkPos sl ord e.key i
        · rw [if_pos ⟨hil, hpw⟩, if_pos ⟨hil, hpw⟩]
        · rw [if_neg (fun hc => hpw hc.2), if_neg (fun hc => hpw hc.2)]
          rfl
      · rw [if_neg (fun hc => hil hc.1), if_neg (fun hc => hil hc.1)]
        rfl
  · intro i
    show (match ((spliceAll sl.headNext sl.nodes UU sl.nodes.length lvl).2 ++
        [newNodeOf sl e lvl UU])[sl.nodes.length]? with
      | none => none
      | some nd => nd.next.getD i none) = _
    rw [happn]
    show ((List.range lvl).map (fun i => nextPtr sl (UU.getD i none) i)).getD i none = _
    rw [getD_map_range]
    by_cases hil : i < lvl
    · rw [if_pos hil, if_pos hil, hU i, if_pos (show i < sl.maxLevel by omega)]
    · rw [if_neg hil, if_neg hil]

theorem sorted_nodup {sl : SkipList} {l : List Nat}
    (h : l.Pairwise (fun a b => CompareKey (keyAt sl a) (keyAt sl b) = -1)) :
    l.Nodup := by
  refine h.imp ?_
  intro a b hr he
  subst he
  rw [CompareKey_self] at hr
  exact absurd hr (by norm_num)

theorem levChain_def (sl : SkipList) (ord : List Nat) (i : Nat) :
    levChain sl ord i = ord.filter (fun j => decide (i < height sl j)) := rfl

/-- The complete account of the insert path: count and arena grow by one,
the new node carries `e`, old entries are untouched, and the invariant
holds again with the new index placed at its sorted position. -/
theorem set_insert_all {sl : SkipList} {ord : List Nat} (inv : Inv sl)
    (d : InvData sl ord) (e : Entry) (lvl : Nat)
    (h1 : 1 ≤ lvl) (h2 : lvl ≤ sl.maxLevel)
    (hnm : ∀ j ∈ ord, CompareKey (keyAt sl j) e.key ≠ 0) :
    (sl.set e lvl).maxLevel = sl.maxLevel ∧
    (sl.set e lvl).count = sl.count + 1 ∧
    (sl.set e lvl).nodes.length = sl.nodes.length + 1 ∧
    entryAt (sl.set e lvl) sl.nodes.length = e ∧
    (∀ x : Nat, x < sl.nodes.length → entryAt (sl.set e lvl) x = entryAt sl x) ∧
    Inv (sl.set e lvl) ∧
    InvData (sl.set e lvl)
      (ord.takeWhile (belowB sl e.key) ++
        sl.nodes.length :: ord.dropWhile (belowB sl e.key)) := by
  obtain ⟨hm, hl, hc, hhn, hnl, hold, hnewE, hnewH, hPold, hPnew⟩ :=
    insert_shape inv d e lvl h1 h2 hnm
  have hkey_old : ∀ x : Nat, x < sl.nodes.length →
      keyAt (sl.set e lvl) x = keyAt sl x := by
    intro x hx
    unfold keyAt
    rw [(hold x hx).1]
  have hkey_new : keyAt (sl.set e lvl) sl.nodes.length = e.key := by
    unfold keyAt
    rw [hnewE]
  have hsorted := d.sorted
  have hsplit0 : ord = ord.takeWhile (belowB sl e.key) ++
      ord.dropWhile (belowB sl e.key) :=
    (List.takeWhile_append_dropWhile _ _).symm
  have hmem_tw : ∀ x ∈ ord.takeWhile (belowB sl e.key), x ∈ ord :=
    fun x hx => (List.takeWhile_sublist _).subset hx
  have hmem_dw : ∀ x ∈ ord.dropWhile (belowB sl e.key), x ∈ ord :=
    fun x hx => (List.dropWhile_sublist _).subset hx
  have hb_tw : ∀ x ∈ ord.takeWhile (belowB sl e.key),
      CompareKey (keyAt sl x) e.key < 0 := by
    intro x hx
    have := List.mem_takeWhile_imp hx
    simpa [belowB] using this
  have hab_dw := sorted_dropWhile_above hsorted hnm
  have hwalkvalid : ∀ i : Nat, walkPos sl ord e.key i = none ∨
      ∃ x, walkPos sl ord e.key i = some x ∧ x < sl.nodes.length := by
    intro i
    rcases walkPos_spec e.key i with hw | ⟨u, hw, huo, _, _⟩
    · exact Or.inl hw
    · exact Or.inr ⟨u, hw, d.memLt u huo⟩
  have hchain' : ∀ i : Nat, i < sl.maxLevel →
      IsChainFrom (sl.set e lvl) i none
        (if i < lvl
         then (levChain sl ord i).takeWhile (belowB sl e.key) ++
              sl.nodes.length :: (levChain sl ord i).dropWhile (belowB sl e.key)
         else levChain sl ord i) := by
    intro i hi
    obtain ⟨htwseg, hdwch⟩ := levChain_split d e.key hi
    have hmem_levtw : ∀ x ∈ (levChain sl ord i).takeWhile (belowB sl e.key) ++
        (levChain sl ord i).dropWhile (belowB sl e.key), x < sl.nodes.length := by
      intro x hx
      rw [List.takeWhile_append_dropWhile] at hx
      exact d.memLt x ((List.filter_sublist _).subset hx)
    by_cases hil : i < lvl
    · rw [if_pos hil]
      refine chain_splice_level htwseg hdwch ?_ ?_ ?_ ?_
      · rw [List.takeWhile_append_dropWhile]
        exact sorted_nodup (levChain_sorted d i)
      · intro r hr hrne
        have hrv : r = none ∨ ∃ x, r = some x ∧ x < sl.nodes.length := by
          rcases hr with rfl | ⟨x, hx, rfl⟩
          · exact Or.inl rfl
          · exact Or.inr ⟨x, rfl, hmem_levtw x hx⟩
        rw [hPold r hrv i, if_neg ?_]
        intro hcc
        exact hrne hcc.2
      · show nextPtr (sl.set e lvl) (walkPos sl ord e.key i) i = some sl.nodes.length
        rw [hPold (walkPos sl ord e.key i) (hwalkvalid i) i,
          if_pos ⟨hil, rfl⟩]
      · rw [hPnew i, if_pos hil]
        exact hdwch.nextPtr_eq_head
    · rw [if_neg hil]
      refine (d.chains i hi).congr_from ?_
      intro r hr
      have hrv : r = none ∨ ∃ x, r = some x ∧ x < sl.nodes.length := by
        rcases hr with rfl | ⟨x, hx, rfl⟩
        · exact Or.inl rfl
        · exact Or.inr ⟨x, rfl, d.memLt x ((List.filter_sublist _).subset hx)⟩
      rw [hPold r hrv i, if_neg (fun hcc => hil hcc.1)]
  have hch' : ∀ i : Nat, i < sl.maxLevel →
      (ord.takeWhile (belowB sl e.key) ++
        sl.nodes.length :: ord.dropWhile (belowB sl e.key)).filter
          (fun j => decide (i < height (sl.set e lvl) j)) =
      (if i < lvl
       then (levChain sl ord i).takeWhile (belowB sl e.key) ++
            sl.nodes.length :: (levChain sl ord i).dropWhile (belowB sl e.key)
       else levChain sl ord i) := by
    intro i _
    have hfe : ∀ (l : List Nat), (∀ x ∈ l, x ∈ ord) →
        l.filter (fun j => decide (i < height (sl.set e lvl) j)) =
        l.filter (fun j => decide (i < height sl j)) := by
      intro l hl
      refine List.filter_congr ?_
      intro x hx
      rw [(hold x (d.memLt x (hl x hx))).2]
    obtain ⟨hctw, hcdw⟩ := filter_split_comm hsorted
      (fun j => decide (i < height sl j))
    rw [List.filter_append, List.filter_cons, hfe _ hmem_tw, hfe _ hmem_dw]
    by_cases hil : i < lvl
    · rw [if_pos hil]
      have hd : decide (i < height (sl.set e lvl) sl.nodes.length) = true := by
        rw [hnewH]
        simpa using hil
      rw [if_pos hd, levChain_def, hctw, hcdw]
    · rw [if_neg hil]
      have hd : ¬ decide (i < height (sl.set e lvl) sl.nodes.length) = true := by
        rw [hnewH]
        simpa using hil
      rw [if_neg hd, levChain_def]
      conv_rhs => rw [hsplit0]
      rw [List.filter_append]
  have hsorted' : (ord.takeWhile (belowB sl e.key) ++
      sl.nodes.length :: ord.dropWhile (belowB sl e.key)).Pairwise
        (fun a b => CompareKey (keyAt (sl.set e lvl) a)
          (keyAt (sl.set e lvl) b) = -1) := by
    rw [List.pairwise_append]
    have hcross := (List.pairwise_append.mp (hsplit0 ▸ hsorted)).2.2
    refine ⟨?_, ?_, ?_⟩
    · refine List.Pairwise.imp_of_mem ?_
        (hsorted.sublist (List.takeWhile_sublist _))
      intro a b ha hb hr
      rw [hkey_old a (d.memLt a (hmem_tw a ha)),
        hkey_old b (d.memLt b (hmem_tw b hb))]
      exact hr
    · rw [List.pairwise_cons]
      constructor
      · intro b hb
        rw [hkey_new, hkey_old b (d.memLt b (hmem_dw b hb))]
        exact hab_dw b hb
      · refine List.Pairwise.imp_of_mem ?_
          (hsorted.sublist (List.dropWhile_sublist _))
        intro a b ha hb hr
        rw [hkey_old a (d.memLt a (hmem_dw a ha)),
          hkey_old b (d.memLt b (hmem_dw b hb))]
        exact hr
    · intro a ha b hb
      rw [hkey_old a (d.memLt a (hmem_tw a ha))]
      rcases List.mem_cons.mp hb with rfl | hbd
      · rw [hkey_new]
        have := hb_tw a ha
        rcases CompareKey_cases (keyAt sl a) e.key with h | h | h <;> omega
      · rw [hkey_old b (d.memLt b (hmem_dw b hbd))]
        exact hcross a ha b hbd
  have hdata' : InvData (sl.set e lvl)
      (ord.takeWhile (belowB sl e.key) ++
        sl.nodes.length :: ord.dropWhile (belowB sl e.key)) := by
    have hML : 1 ≤ sl.maxLevel := le_trans inv.lvlGe inv.lvlLe
    refine {
      chain0 := ?_
      sorted := hsorted'
      memLt := ?_
      complete := ?_
      chains := ?_ }
    · have h0 := hchain' 0 (by omega)
      rw [if_pos (by omega), levChain_zero inv d] at h0
      exact h0
    · intro x hx
      rw [hnl]
      rcases List.mem_append.mp hx with h | h
      · have := d.memLt x (hmem_tw x h)
        omega
      · rcases List.mem_cons.mp h with rfl | h
        · omega
        · have := d.memLt x (hmem_dw x h)
          omega
    · intro x hx
      rw [hnl] at hx
      by_cases hxn : x = sl.nodes.length
      · subst hxn
        exact List.mem_append_right _ (List.mem_cons_self _ _)
      · have hxo : x ∈ ord := d.complete x (by omega)
        rw [hsplit0] at hxo
        rcases List.mem_append.mp hxo with h | h
        · exact List.mem_append_left _ h
        · exact List.mem_append_right _ (List.mem_cons_of_mem _ h)
    · intro i hi
      have hmi : i < sl.maxLevel := by
        rw [hm] at hi
        exact hi
      show IsChainFrom (sl.set e lvl) i none _
      rw [hch' i hmi]
      exact hchain' i hmi
  refine ⟨hm, hc, hnl, hnewE, fun x hx => (hold x hx).1, ?_, hdata'⟩
  exact {
    hnLen := by rw [hhn, hm, inv.hnLen]
    lvlGe := by
      rw [hl]
      have := inv.lvlGe
      split_ifs <;> omega
    lvlLe := by
      rw [hl, hm]
      have := inv.lvlLe
      split_ifs <;> omega
    cnt := by rw [hc, hnl, inv.cnt]
    hts := by
      intro x hx
      rw [hnl] at hx
      by_cases hxn : x = sl.nodes.length
      · subst hxn
        rw [hnewH, hl]
        constructor
        · exact h1
        · split_ifs <;> omega
      · have hxlt : x < sl.nodes.length := by omega
        rw [(hold x hxlt).2, hl]
        have := inv.hts x hxlt
        constructor
        · omega
        · split_ifs <;> omega
    ordEx := ⟨_, hdata'⟩ }

/-! ### The invariant holds on every reachable state -/

theorem nextPtr_new (ml : Nat) (p : Option Nat) (i : Nat) :
    nextPtr (SkipList.new ml) p i = none := by
  cases p with
  | none =>
    show (List.replicate ml (none : Option Nat)).getD i none = none
    rw [List.getD_eq_getElem?_getD, List.getElem?_replicate]
    split <;> rfl
  | some j =>
    show (match ([] : List Node)[j]? with
      | none => none
      | some nd => nd.next.getD i none) = none
    simp

/-- A fresh list satisfies the structural invariant (with empty ordering). -/
theorem inv_new {ml : Nat} (h : 1 ≤ ml) : Inv (SkipList.new ml) := by
  have hchain : ∀ i, IsChainFrom (SkipList.new ml) i none [] := fun i =>
    ⟨IsChainSeg.nil none, by rw [endPos_nil]; exact nextPtr_new ml none i⟩
  refine ⟨?_, le_refl 1, h, rfl, ?_, ⟨[], ?_, ?_, ?_, ?_, ?_⟩⟩
  · show (List.replicate ml (none : Option Nat)).length = ml
    simp
  · intro j hj
    simp [SkipList.new] at hj
  · exact hchain 0
  · exact List.Pairwise.nil
  · intro j hj
    simp at hj
  · intro j hj
    simp [SkipList.new] at hj
  · intro i _
    exact hchain i

/-- Every state reachable by legal `Set` calls satisfies the invariant. -/
theorem reachable_inv {sl : SkipList} (h : Reachable sl) : Inv sl := by
  induction h with
  | base ml hml => exact inv_new hml
  | @step sl e lvl hr h1 h2 ih =>
    obtain ⟨ord, d⟩ := ih.ordEx
    by_cases hex : ∃ j ∈ ord, CompareKey (keyAt sl j) e.key = 0
    · obtain ⟨j, hj, h0⟩ := hex
      obtain ⟨-, -, -, -, -, -, -, -, -, -, hinv, -⟩ := set_update_all ih d e lvl hj h0
      exact hinv
    · push_neg at hex
      obtain ⟨-, -, -, -, -, hinv, -⟩ := set_insert_all ih d e lvl h1 h2 hex
      exact hinv

/-! ### Specifications of the read operations under the invariant -/

/-- `Get` inspects exactly the first node whose key is not below the
query, and demands literal string equality of the stored key there. -/
theorem get_spec {sl : SkipList} {ord : List Nat} (inv : Inv sl)
    (d : InvData sl ord) (q : String) :
    sl.get q =
      match (ord.dropWhile (belowB sl q)).head? with
      | none => none
      | some j => if keyAt sl j = q then some (entryAt sl j) else none := by
  have h := walk_final inv d q
  show (match nextPtr sl (walkDown sl q sl.maxLevel none).1 0 with
    | none => none
    | some j => if keyAt sl j = q then some (entryAt sl j) else none) = _
  rw [h.2.2]

/-- A stored node whose key is string-equal to the query is found. -/
theorem get_hit {sl : SkipList} {ord : List Nat} (inv : Inv sl)
    (d : InvData sl ord) {q : String} {j : Nat} (hj : j ∈ ord)
    (hk : keyAt sl j = q) : sl.get q = some (entryAt sl j) := by
  have h0 : CompareKey (keyAt sl j) q = 0 := by rw [hk]; exact CompareKey_self q
  rw [get_spec inv d q, head_match d.sorted hj h0]
  simp [hk]

/-- If no stored key is string-equal to the query, `Get` misses — even
when a `CompareKey`-equal key is stored. -/
theorem get_miss {sl : SkipList} {ord : List Nat} (inv : Inv sl)
    (d : InvData sl ord) {q : String}
    (hq : ∀ j ∈ ord, keyAt sl j ≠ q) : sl.get q = none := by
  rw [get_spec inv d q]
  cases hh : (ord.dropWhile (belowB sl q)).head? with
  | none => rfl
  | some j =>
    have hjm : j ∈ ord := by
      have h1 : j ∈ ord.dropWhile (belowB sl q) :=
        List.mem_of_mem_head? (Option.mem_def.mpr hh)
      exact (List.dropWhile_sublist _).subset h1
    simp [hq j hjm]

/-- Under the invariant the executable `chain` agrees with the height
filter of the level-0 ordering, at every level. -/
theorem chain_eq {sl : SkipList} {ord : List Nat} (inv : Inv sl)
    (d : InvData sl ord) (i : Nat) : sl.chain i = levChain sl ord i := by
  by_cases hi : i < sl.maxLevel
  · exact chainAux_eq (d.chainsL hi) (by have := levChain_length_le d i; omega)
  · have hml : sl.level ≤ i := by have := inv.lvlLe; omega
    rw [levChain_nil_of_level_le inv d hml]
    have hnp : nextPtr sl none i = none := by
      show sl.headNext.getD i none = none
      rw [List.getD_eq_getElem?_getD, List.getElem?_eq_none]
      · rfl
      · rw [inv.hnLen]; omega
    show chainAux sl i (sl.nodes.length + 1) none = []
    simp [chainAux, hnp]

/-- `elems` lists exactly the entries of the level-0 ordering. -/
theorem elems_eq {sl : SkipList} {ord : List Nat} (inv : Inv sl)
    (d : InvData sl ord) : sl.elems = ord.map (entryAt sl) := by
  rw [SkipList.elems, chain_eq inv d 0, levChain_zero inv d]

/-- The level-0 ordering is a permutation of all arena indices. -/
theorem ord_perm_range {sl : SkipList} {ord : List Nat} (d : InvData sl ord) :
    ord.Perm (List.range sl.nodes.length) := by
  refine List.Subperm.antisymm ?_ ?_
  · refine List.subperm_of_subset d.nodup ?_
    intro x hx
    exact List.mem_range.mpr (d.memLt x hx)
  · refine List.subperm_of_subset (List.nodup_range _) ?_
    intro x hx
    exact d.complete x (List.mem_range.mp hx)

/-- `elems` is a permutation of the stored entries. -/
theorem elems_perm {sl : SkipList} {ord : List Nat} (inv : Inv sl)
    (d : InvData sl ord) : sl.elems.Perm (sl.nodes.map nodeEntry) := by
  rw [elems_eq inv d]
  have h2 : (List.range sl.nodes.length).map (entryAt sl) =
      sl.nodes.map nodeEntry := by
    apply List.ext_getElem?
    intro i
    rw [List.getElem?_map, List.getElem?_map]
    by_cases hi : i < sl.nodes.length
    · rw [List.getElem?_range hi, List.getElem?_eq_getElem hi]
      show some (entryAt sl i) = some (nodeEntry sl.nodes[i])
      rw [entryAt, List.getElem?_eq_getElem hi]
      rfl
    · rw [List.getElem?_eq_none (by simpa using not_lt.mp hi),
        List.getElem?_eq_none (by omega)]
      rfl
  exact ((ord_perm_range d).map (entryAt sl)).trans (by rw [h2])

/-- The collection loop of `Scan` gathers the prefix of the remaining
chain whose keys are at most the end key. -/
theorem collect_spec {sl : SkipList} (ek : String) :
    ∀ (l : List Nat) (p : Option Nat) (fuel : Nat),
      IsChainFrom sl 0 p l → l.length < fuel →
      collectLoop sl ek fuel (nextPtr sl p 0) =
        (l.takeWhile (fun j => decide (CompareKey (keyAt sl j) ek ≤ 0))).map
          (entryAt sl) := by
  intro l
  induction l with
  | nil =>
    intro p fuel h hf
    rw [h.nextPtr_eq_head]
    cases fuel with
    | zero => omega
    | succ f => rfl
  | cons x xs ih =>
    intro p fuel h hf
    rw [h.nextPtr_eq_head]
    cases fuel with
    | zero => omega
    | succ f =>
      obtain ⟨hseg, hend⟩ := h
      cases hseg with
      | cons hp htail0 =>
        have htail : IsChainFrom sl 0 (some x) xs :=
          ⟨(endPos_cons p x xs) ▸ htail0, (endPos_cons p x xs) ▸ hend⟩
        by_cases hc : CompareKey (keyAt sl x) ek ≤ 0
        · show (if CompareKey (keyAt sl x) ek ≤ 0 then
              entryAt sl x :: collectLoop sl ek f (nextPtr sl (some x) 0)
            else []) = _
          rw [if_pos hc, ih (some x) f htail (by simpa using hf)]
          rw [List.takeWhile_cons]
          simp [hc]
        · show (if CompareKey (keyAt sl x) ek ≤ 0 then
              entryAt sl x :: collectLoop sl ek f (nextPtr sl (some x) 0)
            else []) = _
          rw [if_neg hc, List.takeWhile_cons]
          simp [hc]

/-- `Scan` positions at the first node not below `start` and collects
while at most `end`. -/
theorem scan_spec {sl : SkipList} {ord : List Nat} (inv : Inv sl)
    (d : InvData sl ord) (a b : String) :
    sl.scan a b =
      ((ord.dropWhile (belowB sl a)).takeWhile
        (fun j => decide (CompareKey (keyAt sl j) b ≤ 0))).map (entryAt sl) := by
  have h := walk_final inv d a
  show collectLoop sl b (sl.nodes.length + 1)
      (nextPtr sl (walkDown sl a sl.maxLevel none).1 0) = _
  refine collect_spec b (ord.dropWhile (belowB sl a)) _ _ h.2.1 ?_
  have h1 : (ord.dropWhile (belowB sl a)).length ≤ ord.length :=
    (List.dropWhile_sublist _).length_le
  have h2 := d.length_eq
  omega

/-- On a sorted list, `takeWhile` with a downward-closed predicate is
`filter`. -/
theorem sorted_takeWhile_eq_filter {α : Type} {R : α → α → Prop} {q : α → Bool}
    (hcl : ∀ x y, R x y → q y = true → q x = true) :
    ∀ {l : List α}, l.Pairwise R → l.takeWhile q = l.filter q := by
  intro l hl
  induction l with
  | nil => rfl
  | cons x xs ih =>
    rw [List.pairwise_cons] at hl
    by_cases hx : q x = true
    · rw [List.takeWhile_cons, List.filter_cons]
      simp [hx, ih hl.2]
    · have hnil : xs.filter q = [] := by
        rw [List.filter_eq_nil_iff]
        intro y hy hqy
        exact hx (hcl x y (hl.1 y hy) hqy)
      simp [List.takeWhile_cons, List.filter_cons, hx, hnil]

/-- On a sorted list, `dropWhile` with a downward-closed predicate is
the `filter` of the complement. -/
theorem sorted_dropWhile_eq_filter {α : Type} {R : α → α → Prop} {p : α → Bool}
    (hcl : ∀ x y, R x y → p y = true → p x = true) :
    ∀ {l : List α}, l.Pairwise R →
      l.dropWhile p = l.filter (fun x => !(p x)) := by
  intro l hl
  induction l with
  | nil => rfl
  | cons x xs ih =>
    rw [List.pairwise_cons] at hl
    by_cases hx : p x = true
    · simp [List.dropWhile_cons, List.filter_cons, hx, ih hl.2]
    · have hall : xs.filter (fun y => !(p y)) = xs := by
        rw [List.filter_eq_self]
        intro y hy
        cases hpy : p y with
        | true => exact absurd (hcl x y (hl.1 y hy) hpy) hx
        | false => simp
      simp [List.dropWhile_cons, List.filter_cons, hx, hall]

/-- `Scan` returns precisely the stored entries in the closed key range,
in chain order. -/
theorem scan_filter {sl : SkipList} {ord : List Nat} (inv : Inv sl)
    (d : InvData sl ord) (a b : String) :
    sl.scan a b =
      (ord.filter (fun j => decide (0 ≤ CompareKey (keyAt sl j) a) &&
        decide (CompareKey (keyAt sl j) b ≤ 0))).map (entryAt sl) := by
  rw [scan_spec inv d a b]
  have hcl1 : ∀ x y : Nat, CompareKey (keyAt sl x) (keyAt sl y) = -1 →
      belowB sl a y = true → belowB sl a x = true := by
    intro x y hxy hy
    simp only [belowB, decide_eq_true_eq] at hy ⊢
    have := CompareKey_lt_of_lt_of_le hxy
      (show CompareKey (keyAt sl y) a ≤ 0 by omega)
    omega
  have hcl2 : ∀ x y : Nat, CompareKey (keyAt sl x) (keyAt sl y) = -1 →
      decide (CompareKey (keyAt sl y) b ≤ 0) = true →
      decide (CompareKey (keyAt sl x) b ≤ 0) = true := by
    intro x y hxy hy
    simp only [decide_eq_true_eq] at hy ⊢
    have := CompareKey_lt_of_lt_of_le hxy hy
    omega
  rw [sorted_dropWhile_eq_filter hcl1 d.sorted,
    sorted_takeWhile_eq_filter hcl2 (d.sorted.sublist (List.filter_sublist _)),
    List.filter_filter]
  have hpt : ∀ j : Nat,
      (decide (CompareKey (keyAt sl j) b ≤ 0) && !(belowB sl a j)) =
      (decide (0 ≤ CompareKey (keyAt sl j) a) &&
        decide (CompareKey (keyAt sl j) b ≤ 0)) := by
    intro j
    by_cases hja : CompareKey (keyAt sl j) a < 0
    · simp [belowB, hja,
        (show ¬ (0 : Int) ≤ CompareKey (keyAt sl j) a by omega)]
    · simp [belowB, hja,
        (show (0 : Int) ≤ CompareKey (keyAt sl j) a by omega), Bool.and_comm]
  simp only [hpt]

/-- The fill loop of `All` writes the walked entries over the
preallocated slice in order. -/
theorem fillAll_spec :
    ∀ (es acc : List Entry) (i : Nat), acc.length = i + es.length →
      fillAll acc i es = acc.take i ++ es := by
  intro es
  induction es with
  | nil =>
    intro acc i h
    simp only [List.length_nil] at h
    show acc = acc.take i ++ []
    rw [List.append_nil, List.take_of_length_le (by omega)]
  | cons e es ih =>
    intro acc i h
    simp only [List.length_cons] at h
    have hi : i < acc.length := by omega
    show fillAll (acc.set i e) (i + 1) es = acc.take i ++ e :: es
    rw [ih (acc.set i e) (i + 1) (by rw [List.length_set]; omega)]
    have hlen : (acc.take i).length = i := by rw [List.length_take]; omega
    rw [List.set_eq_take_cons_drop e hi, List.take_append_eq_append_take,
      List.take_of_length_le (by omega), hlen]
    have : (e :: acc.drop (i + 1)).take (i + 1 - i) = [e] := by
      have h1 : i + 1 - i = 1 := by omega
      rw [h1]
      rfl
    rw [this, List.append_assoc]
    rfl

/-- `All` returns exactly `elems`: the `count`-sized slice is filled
completely by the level-0 walk. -/
theorem all_eq {sl : SkipList} {ord : List Nat} (inv : Inv sl)
    (d : InvData sl ord) : sl.all = sl.elems := by
  have hlen : sl.elems.length = sl.count := by
    rw [elems_eq inv d, List.length_map, d.length_eq, inv.cnt]
  rw [SkipList.all, fillAll_spec sl.elems (List.replicate sl.count entryZero) 0
    (by rw [List.length_replicate]; omega)]
  rfl

/-! ## The write-ahead log (`internal/lsm/wal.go`)

The file is a byte list (`WalFile := Option (List Nat)`; `none` models a
nil file descriptor).  Protobuf marshalling is externalized as codec
parameters `ser`/`dec`.  Disk operations performed by a call are
reported as an explicit trace. -/

/-- `w` little-endian base-256 bytes of `v` (as `binary.LittleEndian`
writes an `int64`; a length is nonnegative and far below `2^63`, where
signed and unsigned agree). -/
def leBytes : Nat → Nat → List Nat
  | 0, _ => []
  | w + 1, v => v % 256 :: leBytes w (v / 256)

/-- Little-endian value of a byte list (each element reduced mod 256,
as bytes on disk are). -/
def leVal : List Nat → Nat
  | [] => 0
  | b :: bs => b % 256 + 256 * leVal bs

/-- Reinterpret a 64-bit unsigned value as Go's `int64`. -/
def toSigned64 (v : Nat) : Int :=
  if v < 2 ^ 63 then (v : Int) else (v : Int) - 2 ^ 64

/-- The errors a WAL operation can surface (each corresponds to one
`return`-with-error site in `wal.go`). -/
inductive WErr where
  | nilFD
  | marshal
  | lenRead
  | invalidEntrySize
  | corrupted
  | dataRead
  | unmarshal
  deriving DecidableEq, Repr

/-- The file-descriptor operations `Write` performs, in order. -/
inductive WalOp where
  | seekEnd
  | seekStart
  | bulkWrite (data : List Nat)
  | sync
  deriving DecidableEq, Repr

/-- A WAL file: `none` models `fd == nil`. -/
abbrev WalFile := Option (List Nat)

/-- One framed record: `[8-byte little-endian length][payload]`. -/
def frameOf (d : List Nat) : List Nat := leBytes 8 d.length ++ d

/-- The marshal-and-frame loop of `Write`: accumulate frames into the
pooled buffer, counting successfully framed entries; a marshal failure
aborts with the count so far (writes to the in-memory buffer cannot
fail). -/
def buildBuf (ser : Entry → Option (List Nat)) :
    List Entry → List Nat → Nat → List Nat × Nat × Option WErr
  | [], buf, cnt => (buf, cnt, none)
  | e :: es, buf, cnt =>
    match ser e with
    | none => (buf, cnt, some .marshal)
    | some d => buildBuf ser es (buf ++ frameOf d) (cnt + 1)

/-- Result of `WAL.Write`: the file afterwards, the returned count and
error, and the trace of file-descriptor operations. -/
structure WriteResult where
  file : WalFile
  count : Nat
  err : Option WErr
  trace : List WalOp
  deriving DecidableEq, Repr

/-- `WAL.Write(entries...)`: nil-fd check; seek to end; marshal and
frame every entry into one buffer; one bulk `WriteTo` plus one `Sync`.
On a marshal error the buffer is discarded and the file unchanged. -/
def WAL.write (ser : Entry → Option (List Nat)) (w : WalFile)
    (es : List Entry) : WriteResult :=
  match w with
  | none => ⟨none, 0, some .nilFD, []⟩
  | some f =>
    match buildBuf ser es [] 0 with
    | (_, cnt, some er) => ⟨some f, cnt, some er, [.seekEnd]⟩
    | (buf, cnt, none) => ⟨some (f ++ buf), cnt, none,
        [.seekEnd, .bulkWrite buf, .sync]⟩

/-- The loop body of `readNext(maxCount)` over file `f` from offset
`pos`, with the collected batch `acc`.  Models `binary.Read` (EOF on an
empty read, a generic wrapped error on a partial length), the length
validation, and `io.CopyN` (which copies `min` of the request and the
remainder and returns `io.EOF` — a non-nil error — on a short copy, so
the `n != dataLen` corruption check afterwards can never fire).
Returns the result triple and the final offset. -/
def readNextAux (dec : List Nat → Option Entry) (f : List Nat) :
    Nat → Nat → List Entry → (List Entry × Bool × Option WErr) × Nat
  | 0, pos, acc => ((acc, true, none), pos)
  | m + 1, pos, acc =>
    if f.length - pos = 0 then ((acc, false, none), pos)
    else if f.length - pos < 8 then (([], false, some .lenRead), f.length)
    else if toSigned64 (leVal ((f.drop pos).take 8)) ≤ 0 then
      (([], false, some .invalidEntrySize), pos + 8)
    else if min (toSigned64 (leVal ((f.drop pos).take 8))).toNat
        (f.length - (pos + 8)) < (toSigned64 (leVal ((f.drop pos).take 8))).toNat
    then
      (([], false, some .dataRead), pos + 8 +
        min (toSigned64 (leVal ((f.drop pos).take 8))).toNat
          (f.length - (pos + 8)))
    else if min (toSigned64 (leVal ((f.drop pos).take 8))).toNat
        (f.length - (pos + 8)) ≠ (toSigned64 (leVal ((f.drop pos).take 8))).toNat
    then
      (([], false, some .corrupted), pos + 8 +
        min (toSigned64 (leVal ((f.drop pos).take 8))).toNat
          (f.length - (pos + 8)))
    else
      match dec ((f.drop (pos + 8)).take
          (toSigned64 (leVal ((f.drop pos).take 8))).toNat) with
      | none => (([], false, some .unmarshal),
          pos + 8 + (toSigned64 (leVal ((f.drop pos).take 8))).toNat)
      | some e => readNextAux dec f m
          (pos + 8 + (toSigned64 (leVal ((f.drop pos).take 8))).toNat)
          (acc ++ [e])

/-- `readNext(maxCount)` from offset `pos`. -/
def readNext (dec : List Nat → Option Entry) (f : List Nat)
    (pos maxCount : Nat) : (List Entry × Bool × Option WErr) × Nat :=
  readNextAux dec f maxCount pos []

/-- The `ReadAll` loop: `readNext(1000)` until `hasMore` is false,
concatenating batches; any error discards everything.  Fuel
`f.length + 1` always suffices: a batch with `hasMore = true` read
1000 records of at least 9 bytes each, advancing the offset. -/
def readAllLoop (dec : List Nat → Option Entry) (f : List Nat) :
    Nat → Nat → List Entry → List Entry × Option WErr
  | 0, _, acc => (acc, none)
  | fuel + 1, pos, acc =>
    let r := readNext dec f pos 1000
    match r.1.2.2 with
    | some er => ([], some er)
    | none =>
      if r.1.2.1 then readAllLoop dec f fuel r.2 (acc ++ r.1.1)
      else (acc ++ r.1.1, none)

/-- `WAL.ReadAll()`: nil-fd check, seek to start, batched loop. -/
def WAL.readAll (dec : List Nat → Option Entry) (w : WalFile) :
    List Entry × Option WErr :=
  match w with
  | none => ([], some .nilFD)
  | some f => readAllLoop dec f (f.length + 1) 0 []

/-! ## The memtable (`MemTable`) -/

/-- The operations a `MemTable.Set` call performs, in order: WAL
file-descriptor operations, then the skip-list application. -/
inductive MemOp where
  | wal (op : WalOp)
  | applyIndex
  deriving DecidableEq, Repr

/-- A memtable: the `sync.Once` recovery guard, the index, and the
WAL's file. -/
structure MemTable where
  once : Bool
  skipList : SkipList
  wal : WalFile
  deriving DecidableEq, Repr

/-- `MemTable.Set(entry)`: write (and sync) the WAL first; on error
return it without touching the index; otherwise apply to the skip list
(`lvl` is the externalized random level). -/
def MemTable.set (ser : Entry → Option (List Nat)) (mt : MemTable)
    (e : Entry) (lvl : Nat) : MemTable × Option WErr × List MemOp :=
  let r := WAL.write ser mt.wal [e]
  match r.err with
  | some er => ({ mt with wal := r.file }, some er, r.trace.map MemOp.wal)
  | none => ({ mt with wal := r.file, skipList := mt.skipList.set e lvl },
      none, r.trace.map MemOp.wal ++ [.applyIndex])

/-- `MemTable.Get(key)`. -/
def MemTable.get (mt : MemTable) (key : String) : Option Entry :=
  mt.skipList.get key

/-- Replaying a list of entries into the skip list in order; `levels`
supplies the externalized random level drawn for each `Set`. -/
def applyAll : SkipList → List Entry → List Nat → SkipList
  | sk, [], _ => sk
  | sk, e :: es, ls => applyAll (sk.set e (ls.headD 1)) es ls.tail

/-- `MemTable.Recovery()`: guarded by `sync.Once`; streams the WAL
(`ReadBatch(1000)` delivers exactly the batches of the `readNext(1000)`
loop) and applies every entry in file order via `SkipList.Set`.  A nil
fd is only logged (the index stays untouched); a mid-stream read error
panics in the producer goroutine, modelled as `none`. -/
def MemTable.recovery (dec : List Nat → Option Entry) (mt : MemTable)
    (levels : List Nat) : Option MemTable :=
  if mt.once then some mt
  else
    match mt.wal with
    | none => some { mt with once := true }
    | some f =>
      match readAllLoop dec f (f.length + 1) 0 [] with
      | (es, none) =>
        some { mt with
               once := true,
               skipList := applyAll mt.skipList es levels }
      | (_, some _) => none

/-! ## A concrete executable codec (stands in for `proto.Marshal` /
`proto.Unmarshal` in concrete scenarios; the WAL treats payloads as
opaque byte strings) -/

def encE (e : Entry) : List Nat :=
  [e.key.data.length] ++ e.key.data.map Char.toNat ++
  [e.value.length] ++ e.value ++
  [if e.tombstone then 1 else 0, (e.version % (2 ^ 64 : Int)).toNat]

def decE (l : List Nat) : Option Entry :=
  match l with
  | [] => none
  | kl :: r1 =>
    let ks := r1.take kl
    let r2 := r1.drop kl
    if ks.length = kl then
      match r2 with
      | [] => none
      | vl :: r3 =>
        let vs := r3.take vl
        let r4 := r3.drop vl
        if vs.length = vl then
          match r4 with
          | [tb, ver] =>
            some { key := String.mk (ks.map Char.ofNat),
                   value := vs,
                   tombstone := tb == 1,
                   version := toSigned64 ver }
          | _ => none
        else none
    else none

/-- The marshal-and-frame loop appends exactly the frames of the
serialized entries, in order, and counts them. -/
theorem buildBuf_spec (ser : Entry → Option (List Nat)) :
    ∀ (es : List Entry) (ds : List (List Nat)) (buf : List Nat) (cnt : Nat),
      es.map ser = ds.map some →
      buildBuf ser es buf cnt =
        (buf ++ (ds.map frameOf).flatten, cnt + es.length, none) := by
  intro es
  induction es with
  | nil =>
    intro ds buf cnt h
    cases ds with
    | nil => simp [buildBuf]
    | cons d ds => simp at h
  | cons e es ih =>
    intro ds buf cnt h
    cases ds with
    | nil => simp at h
    | cons d ds =>
      simp only [List.map_cons, List.cons.injEq] at h
      show (match ser e with
        | none => (buf, cnt, some WErr.marshal)
        | some d0 => buildBuf ser es (buf ++ frameOf d0) (cnt + 1)) =
        (buf ++ ((d :: ds).map frameOf).flatten, cnt + (e :: es).length, none)
      rw [h.1]
      show buildBuf ser es (buf ++ frameOf d) (cnt + 1) =
        (buf ++ ((d :: ds).map frameOf).flatten, cnt + (e :: es).length, none)
      rw [ih ds (buf ++ frameOf d) (cnt + 1) h.2]
      simp only [Prod.mk.injEq, List.map_cons, List.flatten_cons,
        List.append_assoc, List.length_cons]
      exact ⟨trivial, by omega, trivial⟩

/-- The corruption check after `io.CopyN` is dead code: `readNext`
never surfaces `errCorruptedWAL`, because a short copy already carries
`io.EOF` and is caught by the preceding error check. -/
theorem readNextAux_no_corrupted (dec : List Nat → Option Entry)
    (f : List Nat) :
    ∀ (m pos : Nat) (acc : List Entry),
      (readNextAux dec f m pos acc).1.2.2 ≠ some WErr.corrupted := by
  intro m
  induction m with
  | zero =>
    intro pos acc
    simp [readNextAux]
  | succ m ih =>
    intro pos acc
    simp only [readNextAux]
    split_ifs with h1 h2 h3 h4 h5
    · simp
    · simp
    · simp
    · simp
    · exact absurd (by omega) h5
    · cases hdec : dec ((f.drop (pos + 8)).take
          (toSigned64 (leVal ((f.drop pos).take 8))).toNat) with
      | none => simp [hdec]
      | some e =>
        simp only [hdec]
        exact ih _ _

/-! ## Concrete scenario data used by the claims -/

/-- A total serializer (as `proto.Marshal` is on well-formed entries). -/
def serC : Entry → Option (List Nat) := fun e => some (encE e)

def eC1a : Entry := { key := "k1", value := [118, 49], tombstone := false, version := 1 }

def eC1b : Entry := { key := "k2", value := [118, 50], tombstone := false, version := 2 }

def eC1c : Entry := { key := "k1", value := [], tombstone := true, version := 3 }

/-- A fresh memtable bound to a WAL holding the three records of the
crash-replay scenario. -/
def mtC1 : MemTable :=
  { once := false, skipList := SkipList.new 4,
    wal := (WAL.write serC (some []) [eC1a, eC1b, eC1c]).file }

def slC6 : SkipList :=
  (SkipList.new 4).set { key := "k@01", value := [48], tombstone := false, version := 1 } 1

def slC6b : SkipList :=
  (slC6.set { key := "k@1", value := [49], tombstone := false, version := 2 } 1).set
    { key := "k@1", value := [50], tombstone := false, version := 3 } 1

def slC6w : SkipList :=
  (SkipList.new 4).set { key := "k", value := [49], tombstone := false, version := 1 } 1

theorem slC6w_reach : Reachable slC6w :=
  Reachable.step _ 1 (Reachable.base 4 (by decide)) (by decide) (by decide)

def eA : Entry := { key := "a", value := [1], tombstone := false, version := 1 }

def eB : Entry := { key := "b", value := [2], tombstone := false, version := 2 }

def eC : Entry := { key := "c", value := [3], tombstone := false, version := 3 }

def eD : Entry := { key := "d", value := [4], tombstone := false, version := 4 }

def eE : Entry := { key := "e", value := [5], tombstone := false, version := 5 }

/-- Five distinct keys inserted at assorted levels. -/
def slDemo : SkipList :=
  (((((SkipList.new 3).set eB 2).set eD 1).set eA 3).set eC 1).set eE 2

theorem slDemo_reach : Reachable slDemo :=
  Reachable.step eE 2
    (Reachable.step eC 1
      (Reachable.step eA 3
        (Reachable.step eD 1
          (Reachable.step eB 2 (Reachable.base 3 (by decide))
            (by decide) (by decide))
          (by decide) (by decide))
        (by decide) (by decide))
      (by decide) (by decide))
    (by decide) (by decide)

def slC10 : SkipList :=
  (SkipList.new 4).set { key := "k@1", value := [49], tombstone := false, version := 1 } 1

theorem slC10_reach : Reachable slC10 :=
  Reachable.step _ 1 (Reachable.base 4 (by decide)) (by decide) (by decide)

/-- A WAL file whose single record declares 5 payload bytes but only 3
remain: a truncated final record. -/
def truncF : List Nat := leBytes 8 5 ++ [1, 2, 3]

/-! ## The claims -/

/-- Claim C1 (amended): writing the three records and recovering a fresh
memtable yields `count = 2`, `get "k1"` the tombstoned empty-value entry
— carrying version 1, not 3, because the update path of `Set` rewrites
only value and tombstone — and `get "k2"` the version-2 entry; recovery
applies the WAL entries in file order through `SkipList.set`. -/
theorem C1_replay :
    (MemTable.recovery decE mtC1 [1, 1, 1]).map
      (fun mt => (mt.skipList.count, mt.get "k1", mt.get "k2")) =
    some (2,
      some { key := "k1", value := [], tombstone := true, version := 1 },
      some { key := "k2", value := [118, 50], tombstone := false, version := 2 }) := by
  decide

/-- Claim C1, counterexample to the original wording: after replay the
entry stored for "k1" carries version 1, not the version 3 the claim
asserts ("last write wins" does not extend to the version field). -/
theorem C1_cex :
    (MemTable.recovery decE mtC1 [1, 1, 1]).map
      (fun mt => mt.get "k1" |>.map Entry.version) = some (some 1) ∧
    (1 : Int) ≠ 3 := by
  decide

/-- Claim C2 (amended): `CompareKey` splits each key at its last `'@'`
into (stem, timestamp), falling back to the whole key with timestamp 0
when `'@'` is absent, when the suffix fails to parse as an unsigned
64-bit integer, or — the amendment — when the suffix parses to the
value 0; stems compare lexicographically, equal stems by descending
timestamp. -/
theorem C2_compare (a b : String) : CompareKey a b = amendedCompareKeyC2 a b := by
  rw [CompareKey_def, amendedCompareKeyC2,
    splitKey_eq_amended a.data, splitKey_eq_amended b.data]

/-- Claim C2, counterexample to the original wording: the suffix of
"k@0" parses fine as an unsigned 64-bit integer, so the spec's words
give stem "k" and compare "k" equal to "k@0"; the code treats a parsed
timestamp 0 as "no timestamp" and compares them lexicographically. -/
theorem C2_cex : specCompareKeyC2 "k" "k@0" = 0 ∧ CompareKey "k" "k@0" = -1 := by
  decide

/-- Claim C3: `MemTable.set` writes (and syncs) the WAL before touching
the index.  On a WAL error the error is surfaced verbatim, the memtable
— in particular the skip list — is exactly as before and no read sees
the entry; on success the skip list application happens after the WAL
trace, which contains the sync. -/
theorem C3_wal_first (ser : Entry → Option (List Nat)) (mt : MemTable)
    (e : Entry) (lvl : Nat) :
    ((mt.set ser e lvl).2.1 ≠ none →
      (mt.set ser e lvl).1 = mt ∧
      (mt.set ser e lvl).2.1 = (WAL.write ser mt.wal [e]).err ∧
      (∀ q : String, (mt.set ser e lvl).1.get q = mt.get q) ∧
      MemOp.applyIndex ∉ (mt.set ser e lvl).2.2) ∧
    ((mt.set ser e lvl).2.1 = none →
      (mt.set ser e lvl).1.skipList = mt.skipList.set e lvl ∧
      (mt.set ser e lvl).1.wal = (WAL.write ser mt.wal [e]).file ∧
      (mt.set ser e lvl).2.2 =
        (WAL.write ser mt.wal [e]).trace.map MemOp.wal ++ [MemOp.applyIndex] ∧
      MemOp.wal WalOp.sync ∈ (mt.set ser e lvl).2.2) := by
  cases mt with
  | mk o s w =>
    cases w with
    | none =>
      constructor
      · intro _
        exact ⟨rfl, rfl, fun q => rfl, by simp [MemTable.set, WAL.write]⟩
      · intro hc
        exact absurd hc (by simp [MemTable.set, WAL.write])
    | some f =>
      cases hs : ser e with
      | none =>
        constructor
        · intro _
          refine ⟨?_, ?_, fun q => ?_, ?_⟩ <;>
            simp [MemTable.set, MemTable.get, WAL.write, buildBuf, hs]
        · intro hc
          exact absurd hc (by simp [MemTable.set, WAL.write, buildBuf, hs])
      | some d =>
        constructor
        · intro hc
          exact absurd (by simp [MemTable.set, WAL.write, buildBuf, hs]) hc
        · intro _
          refine ⟨?_, ?_, ?_, ?_⟩ <;>
            simp [MemTable.set, MemTable.get, WAL.write, buildBuf, hs]

/-- Claim C3, witness instances: a nil-fd error leaves the memtable
untouched with no index application; a successful write applies the
entry to the skip list after the WAL trace ending in a sync. -/
theorem C3_wal_first_witness :
    ((({ once := false, skipList := SkipList.new 4, wal := none } : MemTable).set
        serC eC1a 1).1 =
      { once := false, skipList := SkipList.new 4, wal := none }) ∧
    ((({ once := false, skipList := SkipList.new 4, wal := some [] } : MemTable).set
        serC eC1a 1).1.skipList = (SkipList.new 4).set eC1a 1) := by
  refine ⟨?_, ?_⟩
  · exact (((C3_wal_first serC
      { once := false, skipList := SkipList.new 4, wal := none } eC1a 1).1)
      (by decide)).1
  · exact (((C3_wal_first serC
      { once := false, skipList := SkipList.new 4, wal := some [] } eC1a 1).2)
      (by decide)).1

/-- Claim C4: with every entry serializable, `WAL.Write` appends to the
old contents exactly the concatenated frames
`[8-byte little-endian length][payload]` of the entries in argument
order, via a single bulk write followed by a single sync, and returns
the full count with no error. -/
theorem C4_framing (ser : Entry → Option (List Nat)) (f : List Nat)
    (es : List Entry) (ds : List (List Nat)) (h : es.map ser = ds.map some) :
    WAL.write ser (some f) es =
      ⟨some (f ++ (ds.map frameOf).flatten), es.length, none,
        [WalOp.seekEnd, WalOp.bulkWrite ((ds.map frameOf).flatten),
          WalOp.sync]⟩ := by
  have hb := buildBuf_spec ser es ds [] 0 h
  show (match buildBuf ser es [] 0 with
    | (_, cnt, some er) => (⟨some f, cnt, some er, [WalOp.seekEnd]⟩ : WriteResult)
    | (buf, cnt, none) => ⟨some (f ++ buf), cnt, none,
        [WalOp.seekEnd, WalOp.bulkWrite buf, WalOp.sync]⟩) = _
  rw [hb]
  simp

/-- Claim C4, witness: one concrete entry is framed and appended. -/
theorem C4_framing_witness :
    WAL.write serC (some []) [eC1a] =
      ⟨some (([encE eC1a].map frameOf).flatten), 1, none,
        [WalOp.seekEnd, WalOp.bulkWrite (([encE eC1a].map frameOf).flatten),
          WalOp.sync]⟩ :=
  C4_framing serC [] [eC1a] [encE eC1a] rfl

/-- Claim C5 (code bug): `readNext` never returns the `CorruptedLog`
error — the check after `io.CopyN` is dead code, since a short copy
already returns `io.EOF` and is caught by the preceding generic
"failed to read entry data" check (modelled `WErr.dataRead`).  A
truncated final record therefore fails with that generic error, not
with `CorruptedLog` as the spec says; end-of-file at a record boundary
is still a clean no-more-records result. -/
theorem C5_taxonomy :
    (∀ (dec : List Nat → Option Entry) (f : List Nat) (pos maxCount : Nat),
      (readNext dec f pos maxCount).1.2.2 ≠ some WErr.corrupted) ∧
    (readNext decE truncF 0 1).1 = ([], false, some WErr.dataRead) ∧
    (readNext decE [] 0 5).1 = ([], false, none) := by
  refine ⟨?_, by decide, by decide⟩
  intro dec f pos maxCount
  exact readNextAux_no_corrupted dec f maxCount pos []

/-- Claim C5, witness: the truncated-record outcome, read off the
taxonomy theorem. -/
theorem C5_taxonomy_witness :
    (readNext decE truncF 0 1).1 = ([], false, some WErr.dataRead) :=
  C5_taxonomy.2.1

/-- Claim C6 (amended): when `entry.key` is `CompareKey`-equal to the
key of stored node `j`, `Set` rewrites only that node's value and
tombstone and adjusts `size` by the value-length delta; count, level,
arena size, every other node, and node `j`'s key, version and height are
unchanged.  Consequently `get(k)` returns the new value afterwards
provided the matched node's stored key is byte-identical to `k` — without
that proviso the lookup misses, since `Get` compares raw strings. -/
theorem C6_update_frame {sl : SkipList} (h : Reachable sl) (e : Entry)
    (lvl : Nat) (j : Nat) (hj : j < sl.nodes.length)
    (h0 : CompareKey (keyAt sl j) e.key = 0) :
    (sl.set e lvl).count = sl.count ∧
    (sl.set e lvl).level = sl.level ∧
    (sl.set e lvl).nodes.length = sl.nodes.length ∧
    entryAt (sl.set e lvl) j =
      { entryAt sl j with value := e.value, tombstone := e.tombstone } ∧
    (∀ x : Nat, x ≠ j → (sl.set e lvl).nodes[x]? = sl.nodes[x]?) ∧
    (∀ x : Nat, height (sl.set e lvl) x = height sl x) ∧
    (∀ x : Nat, keyAt (sl.set e lvl) x = keyAt sl x) ∧
    (sl.set e lvl).size =
      sl.size + (e.value.length : Int) - ((entryAt sl j).value.length : Int) ∧
    (keyAt sl j = e.key →
      (sl.set e lvl).get e.key =
        some { entryAt sl j with value := e.value, tombstone := e.tombstone }) := by
  have inv := reachable_inv h
  obtain ⟨ord, d⟩ := inv.ordEx
  have hjord : j ∈ ord := d.complete j hj
  obtain ⟨hm, hl, hcnt, hhn, hnl, hsz, hent, hoth, hkeys, hhts, hinv, hd⟩ :=
    set_update_all inv d e lvl hjord h0
  refine ⟨hcnt, hl, hnl, hent, hoth, hhts, hkeys, hsz, ?_⟩
  intro hk
  have hget := get_hit hinv hd hjord ((hkeys j).trans hk)
  rw [hent] at hget
  exact hget

/-- Claim C6, counterexample to the original wording: with a node
stored under "k@01", inserting ("k@1", v1) then ("k@1", v2) takes the
update path twice (the keys are `CompareKey`-equal) and leaves `count`
unchanged, but `get("k@1")` returns not-found, not v2: the stored key
remains the byte-string "k@01". -/
theorem C6_cex :
    CompareKey "k@01" "k@1" = 0 ∧
    slC6b.count = slC6.count ∧
    slC6b.get "k@1" = none := by
  decide

/-- Claim C6, witness: updating a byte-identical key in a reachable
state keeps `count` and makes the new value visible to `get`. -/
theorem C6_update_frame_witness :
    (slC6w.set { key := "k", value := [50], tombstone := false, version := 2 } 1).count
      = slC6w.count ∧
    (slC6w.set { key := "k", value := [50], tombstone := false, version := 2 } 1).get "k"
      = some { key := "k", value := [50], tombstone := false, version := 1 } := by
  have h := C6_update_frame slC6w_reach
    { key := "k", value := [50], tombstone := false, version := 2 } 1 0
    (by decide) (by decide)
  exact ⟨h.1, h.2.2.2.2.2.2.2.2 (by decide)⟩

/-- Claim C7: on every reachable list, `scan(start, end)` returns
exactly the stored entries with `start ≤ key ≤ end` under `CompareKey`,
in ascending key order; `all()` returns every stored entry in ascending
key order (`elems`, a permutation of the arena, empty when nothing was
inserted). -/
theorem C7_scan_all {sl : SkipList} (h : Reachable sl) (a b : String) :
    sl.scan a b = sl.elems.filter
      (fun e => decide (0 ≤ CompareKey e.key a) &&
        decide (CompareKey e.key b ≤ 0)) ∧
    sl.all = sl.elems ∧
    (sl.elems.map Entry.key).Pairwise (fun x y => CompareKey x y = -1) ∧
    sl.elems.Perm (sl.nodes.map nodeEntry) := by
  have inv := reachable_inv h
  obtain ⟨ord, d⟩ := inv.ordEx
  refine ⟨?_, all_eq inv d, ?_, elems_perm inv d⟩
  · rw [elems_eq inv d, List.map_filter]
    exact scan_filter inv d a b
  · rw [elems_eq inv d]
    simp only [List.map_map, List.pairwise_map]
    exact d.sorted

/-- Claim C7, witness: five inserted keys, scanned over a middle range. -/
theorem C7_scan_all_witness :
    Reachable slDemo ∧
    slDemo.scan "b" "d" = slDemo.elems.filter
      (fun e => decide (0 ≤ CompareKey e.key "b") &&
        decide (CompareKey e.key "d" ≤ 0)) ∧
    slDemo.all = slDemo.elems :=
  ⟨slDemo_reach, (C7_scan_all slDemo_reach "b" "d").1,
    (C7_scan_all slDemo_reach "b" "d").2.1⟩

/-- Claim C8: every reachable list satisfies the chain invariant: at
each level the key sequence along the chain is strictly increasing
under `CompareKey`, each level's chain is a sublist of the one below,
and the level-0 chain visits exactly the stored nodes. -/
theorem C8_chain_invariant {sl : SkipList} (h : Reachable sl) :
    (∀ i : Nat, ((sl.chain i).map (keyAt sl)).Pairwise
      (fun x y => CompareKey x y = -1)) ∧
    (∀ i : Nat, (sl.chain (i + 1)).Sublist (sl.chain i)) ∧
    (∀ j : Nat, j ∈ sl.chain 0 ↔ j < sl.nodes.length) := by
  have inv := reachable_inv h
  obtain ⟨ord, d⟩ := inv.ordEx
  refine ⟨?_, ?_, ?_⟩
  · intro i
    rw [chain_eq inv d i, List.pairwise_map]
    exact levChain_sorted d i
  · intro i
    rw [chain_eq inv d (i + 1), chain_eq inv d i]
    refine List.monotone_filter_right ord ?_
    intro j hj
    simp only [decide_eq_true_eq] at hj ⊢
    omega
  · intro j
    rw [chain_eq inv d 0, levChain_zero inv d]
    exact ⟨fun hj => d.memLt j hj, fun hj => d.complete j hj⟩

/-- Claim C8, witness: the invariant read off on a concrete reachable
list. -/
theorem C8_chain_invariant_witness :
    (slDemo.chain 1).Sublist (slDemo.chain 0) ∧
    (0 ∈ slDemo.chain 0 ↔ 0 < slDemo.nodes.length) :=
  ⟨(C8_chain_invariant slDemo_reach).2.1 0,
    (C8_chain_invariant slDemo_reach).2.2 0⟩

/-- Claim C9 (amended): `CompareKey` is reflexive, antisymmetric in the
order sense (`less` one way iff `greater` the other), transitive on
non-positives, and its equality is equality of the split
(stem, timestamp) pairs — which is coarser than string identity. -/
theorem C9_order :
    (∀ a : String, CompareKey a a = 0) ∧
    (∀ a b : String, CompareKey a b = -1 ↔ CompareKey b a = 1) ∧
    (∀ a b : String, CompareKey a b = 0 ↔ splitKey a.data = splitKey b.data) ∧
    (∀ a b c : String,
      CompareKey a b ≤ 0 → CompareKey b c ≤ 0 → CompareKey a c ≤ 0) := by
  refine ⟨CompareKey_self, ?_, CompareKey_eq_zero_iff, ?_⟩
  · intro a b
    have hsw := CompareKey_swap a b
    constructor <;> (intro h; omega)
  · intro a b c h1 h2
    exact CompareKey_le_trans h1 h2

/-- Claim C9, counterexample to the original wording: "k@1" and "k@01"
compare equal (same stem, same parsed timestamp) yet are different
keys, so `compare(a,b) = equal` does not imply `a = b`. -/
theorem C9_cex : CompareKey "k@1" "k@01" = 0 ∧ "k@1" ≠ "k@01" := by
  decide

/-- Claim C9, witness: transitivity applied at concrete keys. -/
theorem C9_order_witness :
    CompareKey "a" "b" ≤ 0 ∧ CompareKey "b" "c" ≤ 0 ∧
    CompareKey "a" "c" ≤ 0 :=
  ⟨by decide, by decide, C9_order.2.2.2 "a" "b" "c" (by decide) (by decide)⟩

/-- Claim C10: `Get` reports found only on a byte-identical stored key:
if no stored key is the exact string `q`, `get q` misses — even when a
`CompareKey`-equal key is stored, in which case a `Set` with key data
equal to `q` still takes the update path and allocates no node. -/
theorem C10_get_exact {sl : SkipList} (h : Reachable sl) (q : String)
    (e : Entry) (lvl : Nat)
    (hq : ∀ j : Nat, j < sl.nodes.length → keyAt sl j ≠ q)
    (he : e.key = q)
    (hcol : ∃ j : Nat, j < sl.nodes.length ∧ CompareKey (keyAt sl j) q = 0) :
    sl.get q = none ∧
    (sl.set e lvl).count = sl.count ∧
    (sl.set e lvl).nodes.length = sl.nodes.length := by
  have inv := reachable_inv h
  obtain ⟨ord, d⟩ := inv.ordEx
  obtain ⟨j, hjlt, h0⟩ := hcol
  have hjord : j ∈ ord := d.complete j hjlt
  have h0e : CompareKey (keyAt sl j) e.key = 0 := by rw [he]; exact h0
  obtain ⟨-, -, hcnt, -, hnl, -, -, -, -, -, -, -⟩ :=
    set_update_all inv d e lvl hjord h0e
  exact ⟨get_miss inv d (fun x hx => hq x (d.memLt x hx)), hcnt, hnl⟩

/-- Claim C10, witness: with "k@1" stored, `get "k@01"` misses though
the keys are `CompareKey`-equal, and a `Set` under "k@01" updates in
place. -/
theorem C10_get_exact_witness :
    slC10.get "k@01" = none ∧
    (slC10.set { key := "k@01", value := [50], tombstone := false, version := 2 } 1).count
      = slC10.count := by
  have h := C10_get_exact slC10_reach "k@01"
    { key := "k@01", value := [50], tombstone := false, version := 2 } 1
    (by decide) (by decide) ⟨0, by decide⟩
  exact ⟨h.1, h.2.1⟩

end SDBF
